import Mathlib

/-!
Verification development for the exim2sieve rule-conversion engine.

The Go sources (internal/sieve/convert.go, internal/sieve/combine.go and the
cpanel text-filter parser) are shallowly embedded over `List Char`.  Strings
are modelled as lists of characters; Go's byte-oriented string functions
coincide with the character-oriented model on the ASCII inputs the engine
handles.  Every definition mirrors the corresponding Go function; the Go
source location is noted in each doc comment.
-/

set_option maxRecDepth 4000

namespace Sieve

/-- Character strings, the model of Go `string` values. -/
abbrev Str := List Char

/-- Turn a Lean string literal into the `Str` model. -/
def strL (s : String) : Str := s.toList

/-- ASCII whitespace, the cases of Go `unicode.IsSpace` that occur in ASCII
filter files (space, tab, newline, carriage return, vertical tab, form feed). -/
def isWsB (c : Char) : Bool :=
  c == ' ' || c == '\t' || c == '\n' || c == '\r' || c == '\x0b' || c == '\x0c'

/-- ASCII lower-casing of one character; Go `strings.ToLower` restricted to
the ASCII range used by the filter sources. -/
def toLowerC (c : Char) : Char :=
  if 'A' ≤ c ∧ c ≤ 'Z' then Char.ofNat (c.toNat + 32) else c

/-- Go `strings.ToLower`. -/
def toLowerS (s : Str) : Str := s.map toLowerC

/-- Drop the trailing run of whitespace (helper for `trimS`). -/
def dropTrailWs (s : Str) : Str := (s.reverse.dropWhile isWsB).reverse

/-- Go `strings.TrimSpace`. -/
def trimS (s : Str) : Str := (s.dropWhile isWsB).reverse.dropWhile isWsB |>.reverse

/-- Go `strings.HasPrefix s pre`. -/
def startsWithB : Str → Str → Bool
  | _, [] => true
  | [], _ :: _ => false
  | c :: cs, p :: ps => c == p && startsWithB cs ps

/-- Go `strings.HasSuffix s suf`. -/
def endsWithB (s suf : Str) : Bool := startsWithB s.reverse suf.reverse

/-- Go `strings.TrimPrefix`. -/
def trimPre (s pre : Str) : Str :=
  if startsWithB s pre then s.drop pre.length else s

/-- Go `strings.TrimSuffix`. -/
def trimSuf (s suf : Str) : Str :=
  if endsWithB s suf then s.take (s.length - suf.length) else s

/-- Go `strings.Index s sub` (first index of a substring), `none` for Go's -1. -/
def indexOfSub (s sub : Str) : Option Nat :=
  (List.range (s.length + 1)).find? (fun i => startsWithB (s.drop i) sub)

/-- Go `strings.Contains`. -/
def containsSubB (s sub : Str) : Bool := (indexOfSub s sub).isSome

/-- Go `strings.Index s (one-character pattern)` via a character scan. -/
def indexOfC (c : Char) (s : Str) : Option Nat := s.findIdx? (· == c)

/-- Go `strings.ContainsAny`. -/
def containsAnyB (s chars : Str) : Bool := s.any (fun c => chars.contains c)

/-- Go `strings.Split s (one-character separator)`. -/
def splitOnC (sep : Char) : Str → List Str
  | [] => [[]]
  | c :: cs =>
    match splitOnC sep cs with
    | [] => [[]]
    | r :: rs => if c == sep then [] :: r :: rs else (c :: r) :: rs

/-- Split into lines, Go `strings.Split s "\n"`. -/
def splitNl (s : Str) : List Str := splitOnC '\n' s

/-- Go `strings.Join`. -/
def interS (sep : Str) : List Str → Str
  | [] => []
  | [x] => x
  | x :: y :: xs => x ++ sep ++ interS sep (y :: xs)

/-- Go `strings.Trim s (one-character cutset)`: strip the leading and trailing
runs of the character `c`. -/
def trimChar (c : Char) (s : Str) : Str :=
  ((s.dropWhile (· == c)).reverse.dropWhile (· == c)).reverse

/-- Go `strings.ReplaceAll s (one-character pattern) rep`. -/
def replAll (c : Char) (rep : Str) : Str → Str
  | [] => []
  | x :: xs => (if x == c then rep else [x]) ++ replAll c rep xs

/-- Go `strings.Fields rest` is only consulted for emptiness and its first
element; `firstWord` returns that first element (`[]` when Fields is empty). -/
def firstWord (s : Str) : Str :=
  (s.dropWhile isWsB).takeWhile (fun c => !isWsB c)

/-- Lexicographic order on strings (Go `sort.Strings` comparison; byte order
and character order agree on ASCII). -/
def lexLe : Str → Str → Bool
  | [], _ => true
  | _ :: _, [] => false
  | a :: as, b :: bs => if a < b then true else if b < a then false else lexLe as bs

/-- Insert into a lexicographically sorted list (helper for `sortStrs`). -/
def insertSorted (x : Str) : List Str → List Str
  | [] => [x]
  | y :: ys => if lexLe x y then x :: y :: ys else y :: insertSorted x ys

/-- Go `sort.Strings` (insertion sort; the result is the unique sorted
arrangement for the duplicate-free lists the engine sorts). -/
def sortStrs (xs : List Str) : List Str := xs.foldr insertSorted []

-- ───────────────────────────── Rule model (internal/sieve/types.go) ─────────

/-- One atomic condition (types.go `Rule`); `mtch` embeds the Go field `Match`
(`match` is a Lean keyword). -/
structure Rule where
  part : Str
  mtch : Str
  val : Str
  opt : Str
deriving DecidableEq

/-- One atomic effect (types.go `Action`). -/
structure Action where
  action : Str
  dest : Str
deriving DecidableEq

/-- One named rule set (types.go `FilterEntry`). -/
structure FilterEntry where
  filtername : Str
  enabled : Int
  rules : List Rule
  actions : List Action
  unescaped : Int := 0
deriving DecidableEq

/-- A whole filter file (types.go `Filter`). -/
structure Filter where
  filter : List FilterEntry
  version : Str
deriving DecidableEq

/-- One output sieve file (convert.go `SieveScript`). -/
structure SieveScript where
  name : Str
  content : Str
deriving DecidableEq, Inhabited

-- ───────────────────────────── convert.go embedding ─────────────────────────

/-- convert.go `quoteString`: escape into a Sieve double-quoted string.  The
same function also embeds Go `fmt.Sprintf("%q", s)` at the call sites below,
which coincides with it on printable ASCII arguments. -/
def quoteString (s : Str) : Str :=
  '"' :: replAll '"' (strL "\\\"") (replAll '\\' (strL "\\\\") s) ++ ['"']

/-- convert.go `fieldKind`. -/
inductive FieldKind where
  | header
  | address
  | body
deriving DecidableEq

/-- convert.go `fieldInfo`. -/
structure FieldInfo where
  kind : FieldKind
  headers : List Str
deriving DecidableEq

/-- convert.go `fieldInfo.test`. -/
def fieldTest (f : FieldInfo) : Str :=
  match f.kind with
  | FieldKind.address => strL "address"
  | _ => strL "header"

/-- convert.go `fieldInfo.headerExpr`. -/
def headerExpr (f : FieldInfo) : Str :=
  match f.headers with
  | [h] => quoteString h
  | hs => strL "[" ++ interS (strL ", ") (hs.map quoteString) ++ strL "]"

/-- convert.go `mapPart`: map a cPanel part selector to Sieve field info. -/
def mapPart (part : Str) : FieldInfo :=
  let p0 := toLowerS (trimS part)
  let p1 := if startsWithB p0 (strL "$header_") then trimPre p0 (strL "$header_") else p0
  let p2 := trimPre p1 (strL "$")
  let p3 := trimSuf p2 (strL ":")
  let p := trimS p3
  if p = strL "from" ∨ p = strL "h_from" then
    ⟨FieldKind.address, [strL "From"]⟩
  else if p = strL "to" ∨ p = strL "h_to" then
    ⟨FieldKind.address, [strL "To"]⟩
  else if p = strL "subject" ∨ p = strL "h_subject" then
    ⟨FieldKind.header, [strL "Subject"]⟩
  else if p = strL "any recipient" ∨ p = strL "any_recipient" ∨ p = strL "anyrecipient" then
    ⟨FieldKind.address, [strL "To", strL "Cc", strL "Bcc"]⟩
  else if p = strL "reply" ∨ p = strL "reply-to" ∨ p = strL "reply_to" then
    ⟨FieldKind.header, [strL "Reply-To"]⟩
  else if p = strL "body" ∨ p = strL "message_body" then
    ⟨FieldKind.body, []⟩
  else if p = strL "any header" ∨ p = strL "any_header" ∨ p = strL "anyheader" then
    ⟨FieldKind.header,
      [strL "From", strL "To", strL "Cc", strL "Bcc", strL "Subject", strL "Reply-To"]⟩
  else if p = [] then
    ⟨FieldKind.header, [strL "Subject"]⟩
  else
    ⟨FieldKind.header, [p]⟩

/-- convert.go `simpleRegexToGlob`'s rejected metacharacters. -/
def metaChars : Str := strL ".*+?[]()|\\"

/-- convert.go `simpleRegexToGlob`: reduce a simple anchor-only regex to a
Sieve glob; `none` is Go's `("", false)` rejection. -/
def simpleRegexToGlob (pattern : Str) : Option Str :=
  if pattern = [] then none
  else if containsAnyB pattern metaChars then none
  else if startsWithB pattern (strL "^") && endsWithB pattern (strL "$")
      && decide (2 < pattern.length) then
    -- pattern[1 : len(pattern)-1]
    some ((pattern.drop 1).dropLast)
  else if startsWithB pattern (strL "^") && decide (1 < pattern.length) then
    some (pattern.drop 1 ++ strL "*")
  else if endsWithB pattern (strL "$") && decide (1 < pattern.length) then
    some (strL "*" ++ pattern.dropLast)
  else none

/-- convert.go `mapMatch`: cPanel match keyword to (sieve op, negated,
pattern); `([], false, [])` is Go's `("", false, "")` no-mapping result. -/
def mapMatch (m v : Str) : Str × Bool × Str :=
  if v = [] then ([], false, [])
  else if m = strL "contains" then (strL ":contains", false, v)
  else if m = strL "does not contain" ∨ m = strL "does not contains" then
    (strL ":contains", true, v)
  else if m = strL "equals" ∨ m = strL "is" then (strL ":is", false, v)
  else if m = strL "does not equal" ∨ m = strL "is not" then (strL ":is", true, v)
  else if m = strL "begins" ∨ m = strL "begins with" then (strL ":matches", false, v ++ strL "*")
  else if m = strL "does not begin" ∨ m = strL "does not begin with" then
    (strL ":matches", true, v ++ strL "*")
  else if m = strL "ends" ∨ m = strL "ends with" then (strL ":matches", false, strL "*" ++ v)
  else if m = strL "does not end" ∨ m = strL "does not end with" then
    (strL ":matches", true, strL "*" ++ v)
  else ([], false, [])

/-- convert.go `mailboxFromDest`: mailbox name from a cPanel save path.
Taking the segment after the last `/` is rendered as reversing, taking the
run without `/`, and reversing back, which agrees with Go's
`LastIndex`/slice pair in both the found and not-found cases. -/
def mailboxFromDest (path : Str) : Str :=
  if path = [] then strL "INBOX"
  else
    let base := (path.reverse.takeWhile (fun c => !(c == '/'))).reverse
    let base := trimS base
    let base := trimPre base (strL ".")
    if base = [] then path else base

/-- Wrap a condition in `not ( … )` when negated (convert.go
`buildSingleCondition`). -/
def negWrap (negative : Bool) (cond : Str) : Str :=
  if negative then strL "not (" ++ cond ++ strL ")" else cond

/-- The normalized match keyword of a rule (convert.go `buildSingleCondition`,
`strings.ToLower(strings.TrimSpace(r.Match))`). -/
def normMatch (r : Rule) : Str := toLowerS (trimS r.mtch)

/-- convert.go `buildSingleCondition`: one rule to a Sieve boolean expression
plus a uses-body flag. -/
def buildSingleCondition (r : Rule) : Str × Bool :=
  let part := toLowerS (trimS r.part)
  let m := normMatch r
  let v := r.val
  if m = strL "matches_regex" ∨ m = strL "does not match" then
    (strL "false /* TODO: regex/does-not-match rule ignored (" ++ r.part ++ strL " "
      ++ quoteString r.mtch ++ strL " " ++ r.val ++ strL ") */", false)
  else if m = strL "matches" then
    match simpleRegexToGlob v with
    | some glob =>
      let field := mapPart part
      if field.kind = FieldKind.body then
        (strL "body :matches " ++ quoteString glob, true)
      else
        (fieldTest field ++ strL " :matches " ++ headerExpr field ++ strL " "
          ++ quoteString glob, false)
    | none =>
      (strL "false /* TODO: unsupported match " ++ quoteString r.mtch ++ strL " on "
        ++ r.part ++ strL " " ++ quoteString r.val ++ strL " */", false)
  else
    let field := mapPart part
    let om := mapMatch m v
    if om.1 = [] ∧ om.2.2 = [] then
      (strL "true /* TODO: unsupported match " ++ quoteString r.mtch ++ strL " on "
        ++ r.part ++ strL " " ++ quoteString r.val ++ strL " */", false)
    else if (mapPart part).kind = FieldKind.body then
      (negWrap om.2.1 (strL "body " ++ om.1 ++ strL " " ++ quoteString om.2.2), true)
    else
      (negWrap om.2.1 (fieldTest field ++ strL " " ++ om.1 ++ strL " "
        ++ headerExpr field ++ strL " " ++ quoteString om.2.2), false)

/-- The normalized join marker of a rule (convert.go `buildConditions`,
`strings.ToLower(strings.TrimSpace(r.Opt))`). -/
def normOpt (r : Rule) : Str := toLowerS (trimS r.opt)

/-- One iteration of convert.go `buildConditions`' rule loop: accumulate the
per-rule condition strings, the uses-body flag and the and/or markers. -/
def condStep (st : List Str × Bool × Bool × Bool) (r : Rule) :
    List Str × Bool × Bool × Bool :=
  let opt := normOpt r
  let hasAnd := if opt = strL "and" then true else st.2.2.1
  let hasOr := if opt = strL "or" ∨ opt = [] then true else st.2.2.2
  let c := buildSingleCondition r
  (st.1 ++ [c.1], st.2.1 || c.2, hasAnd, hasOr)

/-- Pretty-print the clause list of an `anyof`/`allof` block (convert.go
`buildConditions`' render loop: each clause indented, comma on all but the
last). -/
def renderConds : List Str → Str
  | [] => []
  | [c] => strL "    " ++ c ++ strL "\n"
  | c :: c2 :: rest => strL "    " ++ c ++ strL ",\n" ++ renderConds (c2 :: rest)

/-- convert.go `buildConditions`: combined condition for a rule list. -/
def buildConditions (rules : List Rule) : Str × Bool :=
  if rules.length = 1 then buildSingleCondition (rules.headD ⟨[], [], [], []⟩)
  else
    let st := rules.foldl condStep ([], false, false, false)
    let join := if st.2.2.1 && !st.2.2.2 then strL "allof" else strL "anyof"
    if st.1.length = 1 then (st.1.headD [], st.2.1)
    else (join ++ strL " (\n" ++ renderConds st.1 ++ strL ")", st.2.1)

/-- Insert a key into the model of a Go `map[string]bool` extension set
(insertion-ordered, duplicate-free; convert.go renders it sorted, so the
iteration order of the Go map is immaterial). -/
def insertExt (xs : List Str) (x : Str) : List Str :=
  if x ∈ xs then xs else xs ++ [x]

/-- convert.go `ConvertFilters` lines 62-73: extensions required by the body
flag and the actions. -/
def usedExtOf (usesBody : Bool) (actions : List Action) : List Str :=
  let init := if usesBody then insertExt [] (strL "body") else []
  actions.foldl (fun acc a =>
    let act := toLowerS (trimS a.action)
    if act = strL "save" ∨ act = strL "deliver" then insertExt acc (strL "fileinto")
    else if act = strL "reject" then insertExt acc (strL "reject")
    else acc) init

/-- convert.go `ConvertFilters` lines 96-117: one action's emitted text. -/
def renderAction (a : Action) : Str :=
  let act := toLowerS (trimS a.action)
  let dest := a.dest
  if act = strL "save" then
    strL "    fileinto " ++ quoteString (mailboxFromDest dest) ++ strL ";\n"
      ++ strL "    # original path: " ++ quoteString dest ++ strL "\n"
  else if act = strL "deliver" then
    strL "    fileinto " ++ quoteString dest ++ strL ";\n"
  else if act = strL "reject" then
    strL "    reject " ++ quoteString dest ++ strL ";\n"
  else if act = strL "finish" then
    strL "    # finish (Exim): terminate filter processing (handled by stop)\n"
  else
    strL "    # TODO: unsupported action " ++ quoteString a.action ++ strL " dest="
      ++ quoteString a.dest ++ strL "\n"

/-- Concatenation of mapped lists (Go loop appends). -/
def cmap (f : α → List β) : List α → List β
  | [] => []
  | a :: as => f a ++ cmap f as

/-- The content convert.go `ConvertFilters` builds for one entry before the
disabled-entry wrap: either the no-rules stub (lines 26-29) or require header,
`if` block, actions and `stop` (lines 57-122). -/
def baseContent (flt : FilterEntry) : Str :=
  if flt.rules = [] then strL "// Filter has no rules; nothing to match.\n"
  else
    let cond := buildConditions flt.rules
    let usedExt := usedExtOf cond.2 flt.actions
    let header :=
      if usedExt = [] then []
      else strL "require [" ++ interS (strL ", ") (sortStrs (usedExt.map quoteString))
        ++ strL "];\n\n"
    let actionsText :=
      if flt.actions = [] then strL "    # TODO: no actions defined in original filter\n"
      else cmap renderAction flt.actions
    header ++ strL "if " ++ cond.1 ++ strL " \x7b\n" ++ actionsText
      ++ strL "    stop;\n\x7d\n"

/-- convert.go lines 33-46 and 128-141: the explanatory line put in front of a
disabled entry's commented-out content. -/
def noteLine (enabled : Int) : Str :=
  strL "// NOTE: this filter was disabled in cPanel (enabled="
    ++ strL (toString enabled) ++ strL ")"

/-- convert.go disabled wrap: comment out one line, preserving blank lines. -/
def commentLine (l : Str) : Str :=
  if trimS l = [] then [] else strL "// " ++ l

/-- convert.go disabled wrap: the note line followed by every line of the
generated content commented out. -/
def commentOut (enabled : Int) (content : Str) : Str :=
  interS (strL "\n") (noteLine enabled :: (splitNl content).map commentLine)

/-- One loop iteration of convert.go `ConvertFilters`: the script produced for
one entry (Go appends exactly one script per entry). -/
def convertOne (flt : FilterEntry) : SieveScript :=
  let content := baseContent flt
  ⟨flt.filtername, if flt.enabled = 0 then commentOut flt.enabled content else content⟩

/-- convert.go `ConvertFilters`. -/
def ConvertFilters (f : Filter) : List SieveScript :=
  f.filter.map convertOne

-- ───────────────────────────── combine.go embedding ─────────────────────────

/-- combine.go lines 25-38: the extension tokens of one `require [...]` line
(the trimmed line): the text between the first `[` and the first `]`, split on
commas, each piece trimmed of whitespace and of surrounding double quotes;
empty pieces are not added. -/
def parseReqTokens (trimmed : Str) : List Str :=
  match indexOfC '[' trimmed, indexOfC ']' trimmed with
  | some istart, some iend =>
    if istart < iend then
      ((splitOnC ',' ((trimmed.take iend).drop (istart + 1))).map
        (fun p => trimChar '"' (trimS p))).filter (· ≠ [])
    else []
  | _, _ => []

/-- combine.go line 24: whether a line's trimmed form starts with
`require [`. -/
def reqLineB (line : Str) : Bool :=
  startsWithB (trimS line) (strL "require [")

/-- One line of combine.go's inner loop (lines 21-43): a line whose trimmed
form starts with `require [` has its tokens merged into the extension set and
is dropped; every other line is retained. -/
def combineLine (acc : List Str × List Str) (line : Str) : List Str × List Str :=
  if reqLineB line then
    ((parseReqTokens (trimS line)).foldl insertExt acc.1, acc.2)
  else (acc.1, acc.2 ++ [line])

/-- One script of combine.go's outer loop (lines 17-54): extract require
tokens, and unless the remaining body is blank append the name comment, the
body and a blank separator chunk. -/
def combineStep (st : List Str × List Str) (sc : SieveScript) : List Str × List Str :=
  let acc := (splitNl sc.content).foldl combineLine (st.1, [])
  let content := trimS (interS (strL "\n") acc.2)
  if content = [] then (acc.1, st.2)
  else (acc.1, st.2 ++ [strL "# Filter: " ++ sc.name, content, []])

/-- The deduplicated extension set combine.go accumulates over all scripts
(`reqSet`; modelled insertion-ordered, rendering sorts it). -/
def collectedReq (scripts : List SieveScript) : List Str :=
  (scripts.foldl combineStep ([], [])).1

/-- The body chunks combine.go accumulates over all scripts (`bodyChunks`). -/
def bodyChunksOf (scripts : List SieveScript) : List Str :=
  (scripts.foldl combineStep ([], [])).2

/-- combine.go `CombineScripts`. -/
def CombineScripts (name : Str) (scripts : List SieveScript) : SieveScript :=
  let reqs := collectedReq scripts
  let chunks := bodyChunksOf scripts
  let header :=
    if reqs = [] then []
    else strL "require [" ++ interS (strL ", ") (sortStrs (reqs.map quoteString))
      ++ strL "];\n\n"
  let body := if chunks = [] then [] else interS (strL "\n") chunks
  ⟨name, header ++ body⟩

-- ──────────────────── cpanel text-filter parser embedding ───────────────────

/-- cpanel `extractFirstQuoted`: the text between the first two `"`s. -/
def extractFirstQuoted (s : Str) : Str :=
  match indexOfC '"' s with
  | none => []
  | some i =>
    let rest := s.drop (i + 1)
    match indexOfC '"' rest with
    | none => []
    | some j => rest.take j

/-- One iteration of cpanel `parseConditions`' clause loop.  `fuel` bounds the
recursion; each iteration either stops or consumes at least one character of
`s` (the clause cut point of a trimmed non-empty remainder is positive), so
`length s + 1` fuel computes the Go loop exactly. -/
def parseCondLoop (fuel : Nat) (s : Str) (first : Bool) (acc : List Rule) : List Rule :=
  match fuel with
  | 0 => acc
  | fuel + 1 =>
    let s := trimS s
    if s = [] then acc
    else
      -- detect and strip a leading join keyword (absent on the first clause)
      let os :=
        if first then (strL "or", s)
        else
          let lower := toLowerS s
          if startsWithB lower (strL "or ") then (strL "or", trimS (s.drop 3))
          else if startsWithB lower (strL "and ") then (strL "and", trimS (s.drop 4))
          else (strL "or", s)
      let opt := os.1
      let s := os.2
      if s = [] then acc
      else
        -- earliest " or " / " and " delimits the current clause
        let lower := toLowerS s
        let cut := min ((indexOfSub lower (strL " or ")).getD s.length)
          (min ((indexOfSub lower (strL " and ")).getD s.length) s.length)
        let expr := trimS (s.take cut)
        let s2 := if cut < s.length then s.drop cut else []
        let acc2 :=
          if expr = [] then acc
          else
            match indexOfC ':' expr with
            | none => acc
            | some ci =>
              let partStr := trimS (expr.take (ci + 1))
              let rest := trimS (expr.drop (ci + 1))
              let w := firstWord rest
              if w = [] then acc
              else
                match indexOfC '"' rest with
                | none => acc
                | some q1 =>
                  let vPart := rest.drop (q1 + 1)
                  match indexOfC '"' vPart with
                  | none => acc
                  | some q2 => acc ++ [⟨partStr, toLowerS w, vPart.take q2, opt⟩]
        parseCondLoop fuel s2 false acc2

/-- cpanel `parseConditions`: the accumulated condition text to a rule list. -/
def parseConditions (lines : List Str) : List Rule :=
  let joined := trimS (interS (strL " ") lines)
  if joined = [] then [] else parseCondLoop (joined.length + 1) joined true []

/-- One line of cpanel `parseActions` (each line yields at most one action). -/
def parseAction1 (line : Str) : List Action :=
  let l := trimS line
  if l = [] then []
  else
    let lower := toLowerS l
    if startsWithB lower (strL "finish") then [⟨strL "finish", []⟩]
    else if startsWithB lower (strL "deliver ") then
      let arg := extractFirstQuoted l
      if arg = [] then []
      else if containsSubB arg (strL "$local_part+") then
        -- deliver "\"$local_part+Name\"@$domain": mailbox between the marker
        -- and the next quote or @ sign
        let idx := (indexOfSub arg (strL "$local_part+")).getD 0
        let rest := arg.drop (idx + 12)
        let nm :=
          match rest.findIdx? (fun c => c == '"' || c == '@') with
          | some i => rest.take i
          | none => rest
        let nm := trimS nm
        if nm = [] then [] else [⟨strL "save", nm⟩]
      else [⟨strL "deliver", arg⟩]
    else if startsWithB lower (strL "save ") then
      let arg := extractFirstQuoted l
      if arg = [] then [] else [⟨strL "save", arg⟩]
    else []

/-- cpanel `parseActions`. -/
def parseActions (lines : List Str) : List Action :=
  cmap parseAction1 lines

/-- The scanner state of cpanel `ParseFilterFile` (entries accumulated so far
plus the current block and the inIf/inThen flags). -/
structure PState where
  entries : List FilterEntry
  curName : Str
  condLines : List Str
  actionLines : List Str
  inIf : Bool
  inThen : Bool
deriving DecidableEq

/-- Reset the current block (the tail of cpanel `flush`). -/
def resetP (st : PState) : PState :=
  { st with curName := [], condLines := [], actionLines := [], inIf := false, inThen := false }

/-- cpanel `flush`: commit the current block, discarding it when it has no
name, no condition text, no parsed rules or no parsed actions. -/
def flushP (st : PState) : PState :=
  if st.curName = [] ∨ st.condLines = [] then resetP st
  else
    let rules := parseConditions st.condLines
    let acts := parseActions st.actionLines
    if rules = [] ∨ acts = [] then resetP st
    else
      { resetP st with entries := st.entries ++ [⟨st.curName, 1, rules, acts, 0⟩] }

/-- The fixed boilerplate prefixes cpanel `ParseFilterFile` discards. -/
def boilerB (line : Str) : Bool :=
  startsWithB line (strL "# Exim filter") || startsWithB line (strL "# Do not manually")
    || startsWithB line (strL "headers charset")
    || startsWithB line (strL "if not first_delivery")

/-- One scanned line of cpanel `ParseFilterFile`'s loop. -/
def pstep (st : PState) (raw : Str) : PState :=
  let line := trimS raw
  if line = [] then st
  else if boilerB line then st
  else if startsWithB line (strL "#") && !st.inIf && !st.inThen then
    let st := flushP st
    { st with curName := trimS (trimPre line (strL "#")) }
  else if startsWithB line (strL "if") && !st.inIf && !st.inThen then
    let rest := trimS (trimPre line (strL "if"))
    { st with
      inIf := true
      condLines := st.condLines ++ (if rest = [] then [] else [rest]) }
  else if st.inIf then
    if startsWithB line (strL "then") then { st with inIf := false, inThen := true }
    else { st with condLines := st.condLines ++ [line] }
  else if st.inThen then
    if startsWithB line (strL "endif") then flushP { st with inThen := false }
    else { st with actionLines := st.actionLines ++ [line] }
  else st

/-- cpanel `ParseFilterFile` on the scanned lines of the input file (the
embedding takes the file's lines; the Go function reads them through
`bufio.Scanner` and trims each). -/
def parseFilterLines (lines : List Str) : Filter :=
  let st := lines.foldl pstep ⟨[], [], [], [], false, false⟩
  ⟨(flushP st).entries, strL "text"⟩

-- ──────────────── additional definitions used by the theorems ───────────────

/-- The procedural-format input block of claim C1. -/
def c1lines : List Str :=
  [strL "#Nixpal", strL "if $header_from: contains \"foo\"", strL "then",
   strL "save \"Nixpal\"", strL "finish", strL "endif"]

/-- A content string has a runnable test block when some of its lines starts
with `if ` (every test block `ConvertFilters` can emit starts a line this
way). -/
def hasIfLine (content : Str) : Bool :=
  (splitNl content).any (fun l => startsWithB l (strL "if "))

/-- A one-entry filter with zero rules, for the C2 witness. -/
def fZ : Filter := ⟨[⟨strL "Z", 1, [], [], 0⟩], strL "yaml"⟩

/-- A rule whose normalized marker registers `hasAnd` in `buildConditions`. -/
def andMarkB (r : Rule) : Bool := decide (normOpt r = strL "and")

/-- A rule whose normalized marker registers `hasOr` in `buildConditions`
(the `"or", ""` switch cases). -/
def orMarkB (r : Rule) : Bool := decide (normOpt r = strL "or" ∨ normOpt r = [])

/-- Single-pass characterization of `quoteString`'s two replacement passes:
escape one character. -/
def esc1 (c : Char) : Str :=
  if c == '\\' then ['\\', '\\'] else if c == '"' then ['\\', '"'] else [c]

/-- Reader for the body of a Sieve double-quoted string (after the opening
quote): a backslash escapes the next character, an unescaped `"` terminates.
Returns the decoded value and the remaining input; used to state that
`quoteString` output is a single well-delimited quoted string. -/
def pqBody : Str → Option (Str × Str)
  | [] => none
  | c :: rest =>
    if c == '"' then some ([], rest)
    else if c == '\\' then
      match rest with
      | [] => none
      | d :: rest2 => (pqBody rest2).map (fun p => (d :: p.1, p.2))
    else (pqBody rest).map (fun p => (c :: p.1, p.2))

/-- Reader for a whole Sieve double-quoted string. -/
def parseQuoted (s : Str) : Option (Str × Str) :=
  match s with
  | '"' :: rest => pqBody rest
  | _ => none

/-- The invariant C10 states for entries produced by the text-filter parser. -/
def entryInv (e : FilterEntry) : Prop :=
  e.filtername ≠ [] ∧ e.rules ≠ [] ∧ e.actions ≠ [] ∧ e.enabled = 1

/-- A disabled entry and its one-entry filter, for the C7 witness. -/
def eD : FilterEntry :=
  ⟨strL "D", 0, [⟨strL "$header_from:", strL "contains", strL "a", strL "or"⟩],
    [⟨strL "save", strL "X"⟩], 0⟩

/-- The one-entry filter holding `eD`. -/
def fD : Filter := ⟨[eD], strL "yaml"⟩

/-- Two generated scripts that each separately require `fileinto`, for the C6
witness. -/
def s6 : List SieveScript :=
  ConvertFilters ⟨[⟨strL "A", 1,
      [⟨strL "$header_from:", strL "contains", strL "a", strL "or"⟩],
      [⟨strL "save", strL "X"⟩], 0⟩,
    ⟨strL "B", 1,
      [⟨strL "$header_subject:", strL "contains", strL "b", strL "or"⟩],
      [⟨strL "save", strL "Y"⟩], 0⟩], strL "yaml"⟩

-- ───────────────────────────── helper lemmas ────────────────────────────────

theorem startsWithB_append_self (p t : Str) : startsWithB (p ++ t) p = true := by
  induction p with
  | nil => simp [startsWithB]
  | cons c cs ih => simp [startsWithB, ih]

theorem containsSubB_middle (a p b : Str) : containsSubB (a ++ p ++ b) p = true := by
  have hmem : a.length ∈ List.range ((a ++ p ++ b).length + 1) := by
    simp only [List.mem_range, List.length_append]
    omega
  have hdrop : (a ++ p ++ b).drop a.length = p ++ b := by
    rw [List.append_assoc]
    exact List.drop_left a (p ++ b)
  have : (indexOfSub (a ++ p ++ b) p).isSome = true := by
    rw [indexOfSub, List.find?_isSome]
    exact ⟨a.length, hmem, by rw [hdrop]; exact startsWithB_append_self p b⟩
  simpa [containsSubB] using this

theorem splitOnC_cons_eq (sep c : Char) (cs r : Str) (rs : List Str)
    (h : splitOnC sep cs = r :: rs) :
    splitOnC sep (c :: cs) = if c == sep then [] :: r :: rs else (c :: r) :: rs := by
  simp only [splitOnC, h]

theorem splitOnC_ne_nil (sep : Char) (s : Str) : splitOnC sep s ≠ [] := by
  cases s with
  | nil => simp [splitOnC]
  | cons c cs =>
    simp only [splitOnC]
    cases h : splitOnC sep cs with
    | nil => simp
    | cons r rs => by_cases hc : c == sep <;> simp [hc]

theorem splitNl_append_nl (a b : Str) :
    splitNl (a ++ '\n' :: b) = splitNl a ++ splitNl b := by
  induction a with
  | nil =>
    cases h : splitNl b with
    | nil => exact absurd h (splitOnC_ne_nil _ _)
    | cons r rs =>
      show splitOnC '\n' ('\n' :: b) = [] :: r :: rs
      rw [splitOnC_cons_eq '\n' '\n' b r rs h, if_pos (by simp)]
  | cons c cs ih =>
    cases h : splitNl cs with
    | nil => exact absurd h (splitOnC_ne_nil _ _)
    | cons r rs =>
      have hmid : splitNl (cs ++ '\n' :: b) = r :: (rs ++ splitNl b) := by
        rw [ih, h]; rfl
      show splitOnC '\n' (c :: (cs ++ '\n' :: b)) = splitOnC '\n' (c :: cs) ++ splitNl b
      rw [splitOnC_cons_eq '\n' c (cs ++ '\n' :: b) r (rs ++ splitNl b) hmid,
        splitOnC_cons_eq '\n' c cs r rs h]
      by_cases hc : c == '\n'
      · rw [if_pos hc, if_pos hc]; simp
      · rw [if_neg hc, if_neg hc]; simp

theorem splitOnC_not_mem (sep : Char) (s : Str) :
    ∀ l ∈ splitOnC sep s, sep ∉ l := by
  induction s with
  | nil => simp [splitOnC]
  | cons c cs ih =>
    intro l hl
    cases h : splitOnC sep cs with
    | nil => exact absurd h (splitOnC_ne_nil _ _)
    | cons r rs =>
      rw [splitOnC_cons_eq sep c cs r rs h] at hl
      by_cases hc : c == sep
      · rw [if_pos hc] at hl
        simp only [List.mem_cons] at hl
        rcases hl with hl | hl | hl
        · subst hl; simp
        · exact ih l (by rw [h]; exact hl ▸ List.mem_cons_self r rs)
        · exact ih l (by rw [h]; exact List.mem_cons_of_mem r hl)
      · rw [if_neg hc] at hl
        simp only [List.mem_cons] at hl
        rcases hl with hl | hl
        · subst hl
          intro hmem
          rcases List.mem_cons.mp hmem with hh | hh
          · subst hh; simp at hc
          · exact ih r (by rw [h]; exact List.mem_cons_self r rs) hh
        · exact ih l (by rw [h]; exact List.mem_cons_of_mem r hl)

theorem splitOnC_of_not_mem {sep : Char} {s : Str} (h : sep ∉ s) :
    splitOnC sep s = [s] := by
  induction s with
  | nil => simp [splitOnC]
  | cons c cs ih =>
    have hc : ¬(c == sep) = true := by
      simp only [beq_iff_eq]
      intro hcc
      exact h (hcc ▸ List.mem_cons_self c cs)
    have hcs : sep ∉ cs := fun hm => h (List.mem_cons_of_mem c hm)
    simp only [splitOnC, ih hcs]
    simp [hc]

theorem splitNl_head_startsWith (p t : Str) (hp : '\n' ∉ p) :
    ∃ u rest, splitNl (p ++ t) = (p ++ u) :: rest := by
  induction p with
  | nil =>
    cases h : splitNl t with
    | nil => exact absurd h (splitOnC_ne_nil _ _)
    | cons r rs => exact ⟨r, rs, by simpa using h⟩
  | cons c cs ih =>
    have hc : ¬(c == '\n') = true := by
      simp only [beq_iff_eq]
      intro hcc
      exact hp (hcc ▸ List.mem_cons_self c cs)
    have hcs : '\n' ∉ cs := fun hm => hp (List.mem_cons_of_mem c hm)
    obtain ⟨u, rest, hu⟩ := ih hcs
    refine ⟨u, rest, ?_⟩
    show splitOnC '\n' (c :: (cs ++ t)) = (c :: (cs ++ u)) :: rest
    rw [splitOnC_cons_eq '\n' c (cs ++ t) (cs ++ u) rest hu, if_neg hc]

-- ─────────────────────────────── Claim C8 ───────────────────────────────────

/-- C8: the rule `{part: "$header_from:", match: "is", val: "a@b.com"}`
compiles to the Sieve test `address :is "From" "a@b.com"`. -/
theorem c8_match_roundtrip :
    buildSingleCondition ⟨strL "$header_from:", strL "is", strL "a@b.com", strL ""⟩
      = (strL "address :is \"From\" \"a@b.com\"", false) := by
  decide

-- ─────────────────────────────── Claim C1 ───────────────────────────────────

/-- C1 counterexample: parsing the block and compiling it yields exactly one
script, and that script's content does NOT contain the line
`if header :contains "From" "foo" {` the claim demands (the `from` field maps
to an `address` test, not a `header` test). -/
theorem c1_claim_counterexample :
    (ConvertFilters (parseFilterLines c1lines)).length = 1 ∧
    containsSubB ((ConvertFilters (parseFilterLines c1lines)).headD default).content
      (strL "if header :contains \"From\" \"foo\" \x7b") = false := by
  decide

/-- C1 (amended): the block `#Nixpal` / `if $header_from: contains "foo"` /
`then` / `save "Nixpal"` / `finish` / `endif` parses and compiles to a script
whose content contains `require ["fileinto"];`,
`if address :contains "From" "foo" {` (an address test, since `$header_from:`
maps to the address field), `fileinto "Nixpal";`, and `stop;`. -/
theorem c1_procedural_pipeline :
    (ConvertFilters (parseFilterLines c1lines)).length = 1 ∧
    containsSubB ((ConvertFilters (parseFilterLines c1lines)).headD default).content
      (strL "require [\"fileinto\"];") = true ∧
    containsSubB ((ConvertFilters (parseFilterLines c1lines)).headD default).content
      (strL "if address :contains \"From\" \"foo\" \x7b") = true ∧
    containsSubB ((ConvertFilters (parseFilterLines c1lines)).headD default).content
      (strL "fileinto \"Nixpal\";") = true ∧
    containsSubB ((ConvertFilters (parseFilterLines c1lines)).headD default).content
      (strL "stop;") = true := by
  decide

-- ─────────────────────────────── Claim C2 ───────────────────────────────────

theorem zip_map_snd {α β : Type} (l : List α) (g : α → β) :
    ∀ p ∈ l.zip (l.map g), p.2 = g p.1 := by
  induction l with
  | nil => simp
  | cons a l ih =>
    intro p hp
    simp only [List.map_cons, List.zip_cons_cons, List.mem_cons] at hp
    rcases hp with hp | hp
    · subst hp; rfl
    · exact ih p hp

theorem hasIfLine_head (t : Str) : hasIfLine (strL "if " ++ t) = true := by
  obtain ⟨u, rest, hu⟩ := splitNl_head_startsWith (strL "if ") t (by decide)
  rw [hasIfLine, hu]
  simp [startsWithB_append_self]

theorem hasIfLine_append_nl_left (a b : Str) (h : hasIfLine b = true) :
    hasIfLine (a ++ '\n' :: b) = true := by
  rw [hasIfLine, splitNl_append_nl]
  rw [hasIfLine] at h
  simp [List.any_append, h]

/-- The content generated for an entry with rules but no actions still has a
runnable test block (used for the C2 amendment). -/
theorem baseContent_hasIf (e : FilterEntry) (hr : e.rules ≠ []) (ha : e.actions = []) :
    hasIfLine (baseContent e) = true := by
  rw [baseContent, if_neg hr]
  simp only [ha]
  by_cases hb : (buildConditions e.rules).2
  · simp only [hb, usedExtOf, List.foldl_nil, if_true, insertExt]
    simp only [List.not_mem_nil, if_neg (fun h => h), List.nil_append]
    rw [if_neg (by simp : ¬([strL "body"] : List Str) = [])]
    simp only [List.append_assoc, List.nil_append]
    rw [show interS (strL ", ") (sortStrs (List.map quoteString [strL "body"]))
      = strL "\"body\"" from by decide]
    rw [show ∀ t : Str, strL "require [" ++ (strL "\"body\"" ++ (strL "];\n\n" ++ t))
      = strL "require [\"body\"];\n" ++ '\n' :: t from fun t => rfl]
    exact hasIfLine_append_nl_left _ _ (hasIfLine_head _)
  · simp only [Bool.not_eq_true] at hb
    simp only [hb, usedExtOf, List.foldl_nil, if_false, Bool.false_eq_true]
    simp only [if_true, List.append_assoc, List.nil_append]
    exact hasIfLine_head _

/-- C2 counterexample: an entry with one rule and zero actions is not a
comment-only stub; its generated script contains a runnable `if` test block. -/
theorem c2_claim_counterexample :
    (ConvertFilters ⟨[⟨strL "X", 1,
        [⟨strL "$header_from:", strL "contains", strL "foo", strL ""⟩], [], 0⟩],
      strL "yaml"⟩).length = 1 ∧
    hasIfLine ((ConvertFilters ⟨[⟨strL "X", 1,
        [⟨strL "$header_from:", strL "contains", strL "foo", strL ""⟩], [], 0⟩],
      strL "yaml"⟩).headD default).content = true := by
  decide

/-- The content of the script for an entry with zero rules: the comment-only
stub, commented out once more when the entry is disabled. -/
theorem convertOne_content_no_rules (e : FilterEntry) (hr : e.rules = []) :
    (convertOne e).content =
      if e.enabled = 0 then
        commentOut e.enabled (strL "// Filter has no rules; nothing to match.\n")
      else strL "// Filter has no rules; nothing to match.\n" := by
  simp only [convertOne, baseContent, hr, if_pos]

/-- C2 (amended): `ConvertFilters` still produces one script per entry; an
entry with zero rules yields a comment-only stub whose content has no `if`
test block; but an entry with at least one rule and zero actions (when
enabled) yields a script that does contain a runnable `if` test block with a
placeholder comment, contrary to the claim's zero-actions half. -/
theorem c2_stub_scripts (f : Filter) :
    (ConvertFilters f).length = f.filter.length
    ∧ (∀ p ∈ f.filter.zip (ConvertFilters f), p.1.rules = [] →
        hasIfLine p.2.content = false)
    ∧ (∀ p ∈ f.filter.zip (ConvertFilters f),
        p.1.rules ≠ [] → p.1.actions = [] → ¬p.1.enabled = 0 →
        hasIfLine p.2.content = true) := by
  refine ⟨by simp [ConvertFilters], ?_, ?_⟩
  · intro p hp hr
    have h2 := zip_map_snd f.filter convertOne p hp
    rw [h2, convertOne_content_no_rules p.1 hr]
    by_cases he : p.1.enabled = 0
    · rw [if_pos he, he]
      decide
    · rw [if_neg he]
      decide
  · intro p hp hr ha he
    have h2 := zip_map_snd f.filter convertOne p hp
    rw [h2, convertOne]
    rw [if_neg he]
    exact baseContent_hasIf p.1 hr ha

/-- C2 witness: the amended theorem applied to a one-entry filter with zero
rules. -/
theorem c2_stub_scripts_witness :
    ((⟨strL "Z", 1, [], [], 0⟩ : FilterEntry),
        convertOne ⟨strL "Z", 1, [], [], 0⟩) ∈
      fZ.filter.zip (ConvertFilters fZ) ∧
    hasIfLine (convertOne (⟨strL "Z", 1, [], [], 0⟩ : FilterEntry)).content = false :=
  ⟨by decide,
    (c2_stub_scripts fZ).2.1
      (⟨⟨strL "Z", 1, [], [], 0⟩, convertOne ⟨strL "Z", 1, [], [], 0⟩⟩)
      (by decide) (by decide)⟩

-- ─────────────────────────────── Claim C3 ───────────────────────────────────

theorem condStep_foldl_conds (rules : List Rule) (st : List Str × Bool × Bool × Bool) :
    (rules.foldl condStep st).1 = st.1 ++ rules.map (fun r => (buildSingleCondition r).1) := by
  induction rules generalizing st with
  | nil => simp
  | cons r rs ih =>
    rw [List.foldl_cons, ih]
    simp [condStep]

theorem condStep_foldl_hasAnd (rules : List Rule) (st : List Str × Bool × Bool × Bool) :
    (rules.foldl condStep st).2.2.1 = (st.2.2.1 || rules.any andMarkB) := by
  induction rules generalizing st with
  | nil => simp
  | cons r rs ih =>
    rw [List.foldl_cons, ih]
    have hstep : (condStep st r).2.2.1 = (andMarkB r || st.2.2.1) := by
      by_cases h : normOpt r = strL "and" <;> simp [condStep, andMarkB, h]
    rw [hstep, List.any_cons]
    simp [Bool.or_comm, Bool.or_left_comm, Bool.or_assoc]

theorem condStep_foldl_hasOr (rules : List Rule) (st : List Str × Bool × Bool × Bool) :
    (rules.foldl condStep st).2.2.2 = (st.2.2.2 || rules.any orMarkB) := by
  induction rules generalizing st with
  | nil => simp
  | cons r rs ih =>
    rw [List.foldl_cons, ih]
    have hstep : (condStep st r).2.2.2 = (orMarkB r || st.2.2.2) := by
      by_cases h : normOpt r = strL "or" ∨ normOpt r = [] <;> simp [condStep, orMarkB, h]
    rw [hstep, List.any_cons]
    simp [Bool.or_comm, Bool.or_left_comm, Bool.or_assoc]

/-- C3 counterexample: for the rule list with markers `["and", "xor"]`, not
every marker is "and", yet `buildConditions` emits an `allof (...)`
expression, not the `anyof` the claim requires. -/
theorem c3_claim_counterexample :
    (buildConditions
      [⟨strL "p:", strL "contains", strL "a", strL "and"⟩,
       ⟨strL "q:", strL "contains", strL "b", strL "xor"⟩]).1.take 5 = strL "allof" ∧
    ¬(⟨strL "q:", strL "contains", strL "b", strL "xor"⟩ : Rule).opt = strL "and" := by
  decide

/-- C3 (amended): for two or more rules the compiled tests are joined under a
single global operator: `allof` exactly when some rule's normalized `opt`
marker is "and" and no rule's normalized marker is "or" or empty; `anyof`
otherwise.  (In particular opts `["or", "and"]` give `anyof`.) -/
theorem c3_join_collapse (rules : List Rule) (h : 2 ≤ rules.length) :
    (buildConditions rules).1.take 5 =
      (if rules.any andMarkB && !rules.any orMarkB then strL "allof" else strL "anyof") := by
  rw [buildConditions, if_neg (by omega)]
  simp only [condStep_foldl_conds, condStep_foldl_hasAnd, condStep_foldl_hasOr,
    Bool.false_or, List.nil_append]
  have hlen : (rules.map (fun r => (buildSingleCondition r).1)).length = rules.length := by
    simp
  rw [if_neg (by omega)]
  by_cases hc : (rules.any andMarkB && !rules.any orMarkB) = true
  · rw [if_pos hc]
    have h5 : (5 : Nat) = (strL "allof").length := by decide
    show List.take 5 (strL "allof" ++ strL " (\n"
      ++ renderConds (rules.map (fun r => (buildSingleCondition r).1)) ++ strL ")")
      = strL "allof"
    rw [List.append_assoc, List.append_assoc, h5, List.take_left]
  · rw [if_neg hc]
    have h5 : (5 : Nat) = (strL "anyof").length := by decide
    show List.take 5 (strL "anyof" ++ strL " (\n"
      ++ renderConds (rules.map (fun r => (buildSingleCondition r).1)) ++ strL ")")
      = strL "anyof"
    rw [List.append_assoc, List.append_assoc, h5, List.take_left]

/-- C3 witness: the rule list with opts `["or", "and"]` compiles to an
`anyof (...)` expression. -/
theorem c3_join_collapse_witness :
    2 ≤ ([⟨strL "p:", strL "contains", strL "a", strL "or"⟩,
          ⟨strL "q:", strL "contains", strL "b", strL "and"⟩] : List Rule).length ∧
    (buildConditions
      [⟨strL "p:", strL "contains", strL "a", strL "or"⟩,
       ⟨strL "q:", strL "contains", strL "b", strL "and"⟩]).1.take 5 = strL "anyof" :=
  ⟨by decide,
    (c3_join_collapse
      [⟨strL "p:", strL "contains", strL "a", strL "or"⟩,
       ⟨strL "q:", strL "contains", strL "b", strL "and"⟩] (by decide)).trans (by decide)⟩

-- ─────────────────────────────── Claim C4 ───────────────────────────────────

theorem containsAnyB_eq_true {s chars : Str} {c : Char} (hc : c ∈ s) (hm : c ∈ chars) :
    containsAnyB s chars = true := by
  rw [containsAnyB, List.any_eq_true]
  exact ⟨c, hc, by simpa using hm⟩

theorem containsAnyB_eq_false {s chars : Str} (h : ∀ c ∈ s, c ∉ chars) :
    containsAnyB s chars = false := by
  rw [containsAnyB, List.any_eq_false]
  intro c hc
  simpa using h c hc

theorem startsWithB_cons_single (c p : Char) (s : Str) :
    startsWithB (c :: s) [p] = (c == p) := by
  simp [startsWithB]

theorem endsWithB_concat_single (s : Str) (c d : Char) :
    endsWithB (s ++ [c]) [d] = (c == d) := by
  simp [endsWithB, startsWithB]

/-- C4: glob reduction rejects any pattern containing a regex metacharacter
from `. * + ? [ ] ( ) | \`; and on a metacharacter-free, anchor-free, non-empty
core `X` it maps `^X$` to `X`, `^X` to `X*`, `X$` to `*X`, and plain `X` is
rejected. -/
theorem c4_glob_reduction :
    (∀ (p : Str) (c : Char), c ∈ p → c ∈ metaChars → simpleRegexToGlob p = none)
    ∧ (∀ X : Str, X ≠ [] → (∀ c ∈ X, c ∉ metaChars ∧ c ≠ '^' ∧ c ≠ '$') →
        simpleRegexToGlob ('^' :: X ++ strL "$") = some X
        ∧ simpleRegexToGlob ('^' :: X) = some (X ++ strL "*")
        ∧ simpleRegexToGlob (X ++ strL "$") = some (strL "*" ++ X)
        ∧ simpleRegexToGlob X = none) := by
  constructor
  · intro p c hcp hcm
    have hne : ¬p = [] := by rintro rfl; simp at hcp
    rw [simpleRegexToGlob, if_neg hne, if_pos (containsAnyB_eq_true hcp hcm)]
  · intro X hX hchars
    obtain ⟨x, xs, hXc⟩ := List.exists_cons_of_ne_nil hX
    rcases List.eq_nil_or_concat X with hnil | ⟨ys, y, hXs0⟩
    · exact absurd hnil hX
    have hXs : X = ys ++ [y] := by rw [hXs0, List.concat_eq_append]
    have hxmem : x ∈ X := hXc ▸ List.mem_cons_self x xs
    have hymem : y ∈ X := hXs ▸ List.mem_append_right ys (List.mem_singleton.mpr rfl)
    have hxne : ¬(x == '^') = true := by
      simpa using (hchars x hxmem).2.1
    have hyne : ¬(y == '$') = true := by
      simpa using (hchars y hymem).2.2
    have hXmeta : ∀ c ∈ X, c ∉ metaChars := fun c hc => (hchars c hc).1
    have hlen : 1 ≤ X.length := List.length_pos.mpr hX
    -- starts/ends facts about the four candidate patterns
    have hstart1 : startsWithB ('^' :: (X ++ strL "$")) (strL "^") = true := by
      simp [startsWithB]
    have hstart2 : startsWithB ('^' :: X) (strL "^") = true := by
      simp [startsWithB]
    have hstartX : ∀ t : Str, startsWithB (X ++ t) (strL "^") = false := by
      intro t
      rw [hXc]
      show startsWithB (x :: (xs ++ t)) ['^'] = false
      rw [startsWithB_cons_single]
      simpa using hxne
    have hstartX0 : startsWithB X (strL "^") = false := by
      have := hstartX []
      simpa using this
    have hend1 : endsWithB ('^' :: (X ++ strL "$")) (strL "$") = true := by
      show endsWithB (('^' :: X) ++ ['$']) ['$'] = true
      rw [endsWithB_concat_single]
      simp
    have hendX1 : endsWithB (X ++ strL "$") (strL "$") = true := by
      show endsWithB (X ++ ['$']) ['$'] = true
      rw [endsWithB_concat_single]
      simp
    have hend2 : endsWithB ('^' :: X) (strL "$") = false := by
      rw [hXs]
      show endsWithB (('^' :: ys) ++ [y]) ['$'] = false
      rw [endsWithB_concat_single]
      simpa using hyne
    have hendX0 : endsWithB X (strL "$") = false := by
      rw [hXs]
      show endsWithB (ys ++ [y]) ['$'] = false
      rw [endsWithB_concat_single]
      simpa using hyne
    have hdol : (strL "$").length = 1 := by decide
    have hca1 : containsAnyB ('^' :: (X ++ strL "$")) metaChars = false := by
      apply containsAnyB_eq_false
      intro c hc
      rcases List.mem_cons.mp hc with hc | hc
      · subst hc; decide
      rcases List.mem_append.mp hc with hc | hc
      · exact hXmeta c hc
      · have : c = '$' := List.mem_singleton.mp (show c ∈ ['$'] from hc)
        subst this; decide
    have hca2 : containsAnyB ('^' :: X) metaChars = false := by
      apply containsAnyB_eq_false
      intro c hc
      rcases List.mem_cons.mp hc with hc | hc
      · subst hc; decide
      · exact hXmeta c hc
    have hca3 : containsAnyB (X ++ strL "$") metaChars = false := by
      apply containsAnyB_eq_false
      intro c hc
      rcases List.mem_append.mp hc with hc | hc
      · exact hXmeta c hc
      · have : c = '$' := List.mem_singleton.mp (show c ∈ ['$'] from hc)
        subst this; decide
    have hca0 : containsAnyB X metaChars = false := containsAnyB_eq_false hXmeta
    refine ⟨?_, ?_, ?_, ?_⟩
    · -- ^X$ → X
      rw [simpleRegexToGlob, if_neg (by simp), if_neg (by simp [hca1]),
        if_pos (by simp [hstart1, hend1, hdol]; omega)]
      rw [List.drop_one]
      show some (X ++ ['$']).dropLast = some X
      rw [List.dropLast_concat]
    · -- ^X → X*
      rw [simpleRegexToGlob, if_neg (by simp), if_neg (by simp [hca2]),
        if_neg (by simp [hend2]), if_pos (by simp [hstart2]; omega)]
      rw [List.drop_one]
      rfl
    · -- X$ → *X
      rw [simpleRegexToGlob, if_neg (by simp [hX]), if_neg (by simp [hca3]),
        if_neg (by simp [hstartX (strL "$")]), if_neg (by simp [hstartX (strL "$")]),
        if_pos (by simp [hendX1, hdol]; omega)]
      show some ('*' :: (X ++ ['$']).dropLast) = some ('*' :: X)
      rw [List.dropLast_concat]
    · -- plain X → rejected
      rw [simpleRegexToGlob, if_neg hX, if_neg (by simp [hca0]),
        if_neg (by simp [hstartX0]), if_neg (by simp [hstartX0]),
        if_neg (by simp [hendX0])]

/-- C4 witness: the four instances from the claim. -/
theorem c4_glob_reduction_witness :
    simpleRegexToGlob (strL "^Suspended:") = some (strL "Suspended:*")
    ∧ simpleRegexToGlob (strL "^Suspended:$") = some (strL "Suspended:")
    ∧ simpleRegexToGlob (strL "Suspended:$") = some (strL "*Suspended:")
    ∧ simpleRegexToGlob (strL "Sus*ended") = none :=
  ⟨(c4_glob_reduction.2 (strL "Suspended:") (by decide) (by decide)).2.1,
   (c4_glob_reduction.2 (strL "Suspended:") (by decide) (by decide)).1,
   (c4_glob_reduction.2 (strL "Suspended:") (by decide) (by decide)).2.2.1,
   c4_glob_reduction.1 (strL "Sus*ended") '*' (by decide) (by decide)⟩

-- ─────────────────────────────── Claim C5 ───────────────────────────────────

theorem startsWithB_append_left (a t p : Str) (h : startsWithB a p = true) :
    startsWithB (a ++ t) p = true := by
  induction p generalizing a with
  | nil => simp [startsWithB]
  | cons q qs ih =>
    cases a with
    | nil => simp [startsWithB] at h
    | cons c cs =>
      rw [List.cons_append]
      rw [show startsWithB (c :: cs) (q :: qs) = ((c == q) && startsWithB cs qs) from rfl]
        at h
      rw [show startsWithB (c :: (cs ++ t)) (q :: qs)
        = ((c == q) && startsWithB (cs ++ t) qs) from rfl]
      rcases Bool.and_eq_true_iff.mp h with ⟨h1, h2⟩
      rw [h1, ih cs h2]
      rfl

theorem infix_append_left (s : Str) {p t : Str} (h : p <:+: t) : p <:+: s ++ t :=
  h.trans (List.suffix_append s t).isInfix

theorem containsSubB_of_infix {p s : Str} (h : p <:+: s) : containsSubB s p = true := by
  obtain ⟨u, v, huv⟩ := h
  rw [← huv]
  exact containsSubB_middle u p v

/-- C5: condition compilation is fail-soft with an asymmetric placeholder.  A
regex-form match (`matches_regex` / `does not match`), or a `matches` whose
value has no glob reduction, compiles to a literal `false /* ... */` test whose
comment names the rule's part; a match keyword with no operator-table mapping
(any keyword when `val` is empty yields no mapping) compiles to a literal
`true /* ... */` placeholder; both paths return normally, with the uses-body
flag false. -/
theorem c5_failsoft_placeholders (r : Rule) :
    ((normMatch r = strL "matches_regex" ∨ normMatch r = strL "does not match") →
      startsWithB (buildSingleCondition r).1 (strL "false /*") = true
      ∧ containsSubB (buildSingleCondition r).1 r.part = true
      ∧ (buildSingleCondition r).2 = false)
    ∧ (normMatch r = strL "matches" → simpleRegexToGlob r.val = none →
      startsWithB (buildSingleCondition r).1 (strL "false /*") = true
      ∧ containsSubB (buildSingleCondition r).1 r.part = true
      ∧ (buildSingleCondition r).2 = false)
    ∧ (¬(normMatch r = strL "matches_regex" ∨ normMatch r = strL "does not match") →
      ¬normMatch r = strL "matches" →
      mapMatch (normMatch r) r.val = ([], false, []) →
      startsWithB (buildSingleCondition r).1 (strL "true /*") = true
      ∧ containsSubB (buildSingleCondition r).1 r.part = true
      ∧ (buildSingleCondition r).2 = false)
    ∧ (r.val = [] → mapMatch (normMatch r) r.val = ([], false, [])) := by
  refine ⟨?_, ?_, ?_, ?_⟩
  · intro h
    have heq : buildSingleCondition r
        = (strL "false /* TODO: regex/does-not-match rule ignored (" ++ r.part
            ++ strL " " ++ quoteString r.mtch ++ strL " " ++ r.val ++ strL ") */",
          false) := by
      simp only [buildSingleCondition]
      rw [if_pos h]
    refine ⟨?_, ?_, ?_⟩ <;> rw [heq]
    · simp only [List.append_assoc]
      exact startsWithB_append_left _ _ _ (by decide)
    · simp only [List.append_assoc]
      exact containsSubB_of_infix
        (infix_append_left _ (List.prefix_append r.part _).isInfix)
  · intro h hg
    have hno : ¬(normMatch r = strL "matches_regex" ∨ normMatch r = strL "does not match") := by
      rw [h]; decide
    have heq : buildSingleCondition r
        = (strL "false /* TODO: unsupported match " ++ quoteString r.mtch
            ++ strL " on " ++ r.part ++ strL " " ++ quoteString r.val ++ strL " */",
          false) := by
      simp only [buildSingleCondition]
      rw [if_neg hno, if_pos h, hg]
    refine ⟨?_, ?_, ?_⟩ <;> rw [heq]
    · simp only [List.append_assoc]
      exact startsWithB_append_left _ _ _ (by decide)
    · simp only [List.append_assoc]
      exact containsSubB_of_infix (infix_append_left _ (infix_append_left _
        (infix_append_left _ (List.prefix_append r.part _).isInfix)))
  · intro h1 h2 h3
    have heq : buildSingleCondition r
        = (strL "true /* TODO: unsupported match " ++ quoteString r.mtch
            ++ strL " on " ++ r.part ++ strL " " ++ quoteString r.val ++ strL " */",
          false) := by
      simp only [buildSingleCondition]
      rw [if_neg h1, if_neg h2]
      simp only [h3]
      rw [if_pos (by constructor <;> trivial)]
    refine ⟨?_, ?_, ?_⟩ <;> rw [heq]
    · simp only [List.append_assoc]
      exact startsWithB_append_left _ _ _ (by decide)
    · simp only [List.append_assoc]
      exact containsSubB_of_infix (infix_append_left _ (infix_append_left _
        (infix_append_left _ (List.prefix_append r.part _).isInfix)))
  · intro hv
    rw [hv, mapMatch, if_pos rfl]

/-- C5 witness: a `matches_regex` rule gets the `false` placeholder; a
`contains` rule with empty `val` gets the `true` placeholder. -/
theorem c5_failsoft_placeholders_witness :
    startsWithB (buildSingleCondition
      ⟨strL "$header_from:", strL "matches_regex", strL "x", strL ""⟩).1
      (strL "false /*") = true
    ∧ startsWithB (buildSingleCondition
      ⟨strL "$header_from:", strL "contains", strL "", strL ""⟩).1
      (strL "true /*") = true :=
  ⟨((c5_failsoft_placeholders
      ⟨strL "$header_from:", strL "matches_regex", strL "x", strL ""⟩).1
      (by decide)).1,
   ((c5_failsoft_placeholders
      ⟨strL "$header_from:", strL "contains", strL "", strL ""⟩).2.2.1
      (by decide) (by decide) (by decide)).1⟩

-- ─────────────────────────────── Claim C9 ───────────────────────────────────

theorem replAll_esc (s : Str) :
    replAll '"' (strL "\\\"") (replAll '\\' (strL "\\\\") s) = cmap esc1 s := by
  induction s with
  | nil => rfl
  | cons c cs ih =>
    by_cases h1 : c = '\\'
    · subst h1
      simp only [replAll, esc1, cmap]
      rw [← ih]
      rfl
    · by_cases h2 : c = '"'
      · subst h2
        simp only [replAll, esc1, cmap]
        rw [← ih]
        rfl
      · have hb1 : (c == '\\') = false := by simpa using h1
        have hb2 : (c == '"') = false := by simpa using h2
        simp only [replAll, esc1, cmap, hb1, hb2]
        rw [← ih]
        rfl

theorem pqBody_quote (t : Str) : pqBody ('"' :: t) = some ([], t) := by
  rw [pqBody.eq_def]
  simp

theorem pqBody_backslash (d : Char) (rest : Str) :
    pqBody ('\\' :: d :: rest) = (pqBody rest).map (fun p => (d :: p.1, p.2)) := by
  rw [pqBody.eq_def]
  simp

theorem pqBody_other (c : Char) (rest : Str) (h1 : ¬c = '"') (h2 : ¬c = '\\') :
    pqBody (c :: rest) = (pqBody rest).map (fun p => (c :: p.1, p.2)) := by
  rw [pqBody.eq_def]
  simp [h1, h2]

theorem pqBody_roundtrip (s t : Str) :
    pqBody (cmap esc1 s ++ '"' :: t) = some (s, t) := by
  induction s with
  | nil =>
    show pqBody ('"' :: t) = some ([], t)
    exact pqBody_quote t
  | cons c cs ih =>
    by_cases h1 : c = '\\'
    · subst h1
      show pqBody ('\\' :: '\\' :: (cmap esc1 cs ++ '"' :: t)) = some ('\\' :: cs, t)
      rw [pqBody_backslash, ih]
      rfl
    · by_cases h2 : c = '"'
      · subst h2
        show pqBody ('\\' :: '"' :: (cmap esc1 cs ++ '"' :: t)) = some ('"' :: cs, t)
        rw [pqBody_backslash, ih]
        rfl
      · have hrw : cmap esc1 (c :: cs) ++ '"' :: t = c :: (cmap esc1 cs ++ '"' :: t) := by
          simp [cmap, esc1, show (c == '\\') = false from by simpa using h1,
            show (c == '"') = false from by simpa using h2]
        rw [hrw, pqBody_other c _ h2 h1, ih]
        rfl

/-- C9: `quoteString` doubles every backslash, then escapes every double
quote, and wraps the result in quotes — equivalently it emits the one-pass
character escaping `esc1` between two quotes — and the emitted literal is a
single well-delimited Sieve quoted string: reading a quoted string from
`quoteString s ++ t` recovers exactly `s` and leaves exactly `t`, so an
embedded quote or backslash in `s` can never terminate the literal early. -/
theorem c9_quote_roundtrip (s t : Str) :
    quoteString s = '"' :: (cmap esc1 s ++ ['"'])
    ∧ parseQuoted (quoteString s ++ t) = some (s, t) := by
  have hq : quoteString s = '"' :: (cmap esc1 s ++ ['"']) := by
    rw [quoteString, replAll_esc]
    rfl
  refine ⟨hq, ?_⟩
  rw [hq]
  show pqBody ((cmap esc1 s ++ ['"']) ++ t) = some (s, t)
  rw [List.append_assoc]
  exact pqBody_roundtrip s t

-- ─────────────────────────────── Claim C10 ──────────────────────────────────

theorem flushP_inv (st : PState) (h : ∀ e ∈ st.entries, entryInv e) :
    ∀ e ∈ (flushP st).entries, entryInv e := by
  rw [flushP]
  by_cases h1 : st.curName = [] ∨ st.condLines = []
  · rw [if_pos h1]; exact h
  · rw [if_neg h1]
    by_cases h2 : parseConditions st.condLines = [] ∨ parseActions st.actionLines = []
    · rw [if_pos h2]; exact h
    · rw [if_neg h2]
      intro e he
      rcases List.mem_append.mp he with he | he
      · exact h e he
      · have : e = ⟨st.curName, 1, parseConditions st.condLines,
          parseActions st.actionLines, 0⟩ := by simpa using he
        subst this
        exact ⟨(not_or.mp h1).1, (not_or.mp h2).1, (not_or.mp h2).2, rfl⟩

theorem pstep_entries (st : PState) (l : Str) :
    (pstep st l).entries = st.entries
    ∨ (pstep st l).entries = (flushP st).entries
    ∨ (pstep st l).entries = (flushP { st with inThen := false }).entries := by
  simp only [pstep]
  by_cases c0 : trimS l = []
  · rw [if_pos c0]; exact Or.inl rfl
  rw [if_neg c0]
  by_cases c1 : boilerB (trimS l) = true
  · rw [if_pos c1]; exact Or.inl rfl
  rw [if_neg c1]
  by_cases c2 : (startsWithB (trimS l) (strL "#") && !st.inIf && !st.inThen) = true
  · rw [if_pos c2]; exact Or.inr (Or.inl rfl)
  rw [if_neg c2]
  by_cases c3 : (startsWithB (trimS l) (strL "if") && !st.inIf && !st.inThen) = true
  · rw [if_pos c3]; exact Or.inl rfl
  rw [if_neg c3]
  by_cases c4 : st.inIf = true
  · rw [if_pos c4]
    by_cases c4b : startsWithB (trimS l) (strL "then") = true
    · rw [if_pos c4b]; exact Or.inl rfl
    · rw [if_neg c4b]; exact Or.inl rfl
  rw [if_neg c4]
  by_cases c5 : st.inThen = true
  · rw [if_pos c5]
    by_cases c5b : startsWithB (trimS l) (strL "endif") = true
    · rw [if_pos c5b]; exact Or.inr (Or.inr rfl)
    · rw [if_neg c5b]; exact Or.inl rfl
  · rw [if_neg c5]; exact Or.inl rfl

theorem foldl_pstep_inv (lines : List Str) (st : PState)
    (h : ∀ e ∈ st.entries, entryInv e) :
    ∀ e ∈ (lines.foldl pstep st).entries, entryInv e := by
  induction lines generalizing st with
  | nil => exact h
  | cons l ls ih =>
    rw [List.foldl_cons]
    apply ih
    rcases pstep_entries st l with hp | hp | hp <;> rw [hp]
    · exact h
    · exact flushP_inv st h
    · exact flushP_inv { st with inThen := false } h

/-- C10: every entry the text-filter parser commits has a non-empty name, at
least one rule, at least one action, and enabled flag 1 — so the procedural
text format can never yield a disabled entry, and the disabled-entry
commenting path is reachable only from the declarative input. -/
theorem c10_parser_invariant (lines : List Str) :
    ∀ e ∈ (parseFilterLines lines).filter,
      e.filtername ≠ [] ∧ e.rules ≠ [] ∧ e.actions ≠ [] ∧ e.enabled = 1 := by
  intro e he
  have h0 : ∀ e ∈ (⟨[], [], [], [], false, false⟩ : PState).entries, entryInv e := by
    simp
  exact flushP_inv _ (foldl_pstep_inv lines _ h0) e he

/-- C10 witness: the parsed Nixpal entry from the C1 block satisfies the
invariant. -/
theorem c10_parser_invariant_witness :
    (⟨strL "Nixpal", 1, [⟨strL "$header_from:", strL "contains", strL "foo", strL "or"⟩],
        [⟨strL "save", strL "Nixpal"⟩, ⟨strL "finish", strL ""⟩], 0⟩ : FilterEntry)
      ∈ (parseFilterLines c1lines).filter ∧
    (⟨strL "Nixpal", 1, [⟨strL "$header_from:", strL "contains", strL "foo", strL "or"⟩],
        [⟨strL "save", strL "Nixpal"⟩, ⟨strL "finish", strL ""⟩], 0⟩ : FilterEntry).enabled
      = 1 :=
  ⟨by decide,
    (c10_parser_invariant c1lines
      ⟨strL "Nixpal", 1, [⟨strL "$header_from:", strL "contains", strL "foo", strL "or"⟩],
        [⟨strL "save", strL "Nixpal"⟩, ⟨strL "finish", strL ""⟩], 0⟩ (by decide)).2.2.2⟩

-- ─────────────────────────────── Claim C7 ───────────────────────────────────

/-- The disabled-entry wrap does not change what content is wrapped: the base
content ignores the enabled flag. -/
theorem convertOne_enabled_one (e : FilterEntry) :
    (convertOne { e with enabled := 1 }).content = baseContent e := by
  simp only [convertOne]
  rw [if_neg (by simp)]
  rfl

/-- C7: a disabled entry's script content is the note line followed by the
already-generated content (the content generated for the same entry enabled)
with every non-blank line prefixed by `// ` and blank lines preserved. -/
theorem c7_disabled_commenting (f : Filter) :
    ∀ p ∈ f.filter.zip (ConvertFilters f), p.1.enabled = 0 →
      p.2.content = interS (strL "\n")
        (noteLine 0 ::
          (splitNl ((convertOne { p.1 with enabled := 1 }).content)).map commentLine) := by
  intro p hp he
  have h2 := zip_map_snd f.filter convertOne p hp
  rw [h2, convertOne_enabled_one]
  simp only [convertOne]
  rw [if_pos he, commentOut, he]

/-- C7 witness: the theorem applied to the one-entry disabled filter. -/
theorem c7_disabled_commenting_witness :
    ((eD, convertOne eD) ∈ fD.filter.zip (ConvertFilters fD)) ∧
    (convertOne eD).content = interS (strL "\n")
      (noteLine 0 ::
        (splitNl ((convertOne { eD with enabled := 1 }).content)).map commentLine) :=
  ⟨by decide,
    c7_disabled_commenting fD (eD, convertOne eD) (by decide) (by decide)⟩

-- ─────────────────────── Claim C6: line and trim lemmas ─────────────────────

theorem splitNl_cons_nl (b : Str) : splitNl ('\n' :: b) = [] :: splitNl b := by
  cases h : splitNl b with
  | nil => exact absurd h (splitOnC_ne_nil _ _)
  | cons r rs =>
    rw [splitNl, splitOnC_cons_eq '\n' '\n' b r rs h, if_pos (by simp), ← h]

theorem trimS_cons_ws {c : Char} (hc : isWsB c = true) (s : Str) :
    trimS (c :: s) = trimS s := by
  simp [trimS, List.dropWhile_cons_of_pos hc]

theorem trimS_concat_ws {c : Char} (hc : isWsB c = true) (s : Str) :
    trimS (s ++ [c]) = trimS s := by
  rw [trimS, trimS, List.dropWhile_append]
  cases hdw : s.dropWhile isWsB with
  | nil => simp [List.dropWhile_cons_of_pos hc]
  | cons d ds =>
    simp only [List.isEmpty_cons, if_false, Bool.false_eq_true]
    rw [List.reverse_append]
    show ((([c].reverse ++ (d :: ds).reverse).dropWhile isWsB).reverse : Str) = _
    rw [show ([c].reverse ++ (d :: ds).reverse : Str) = c :: (d :: ds).reverse from rfl]
    rw [List.dropWhile_cons_of_pos hc]

theorem trimS_eq_self {c d : Char} (hc : isWsB c = false) (hd : isWsB d = false)
    (mid : Str) : trimS (c :: (mid ++ [d])) = c :: (mid ++ [d]) := by
  rw [trimS]
  rw [List.dropWhile_cons_of_neg (by simp [hc])]
  have hrev : (c :: (mid ++ [d])).reverse = d :: (mid.reverse ++ [c]) := by simp
  rw [hrev, List.dropWhile_cons_of_neg (by simp [hd]), ← hrev, List.reverse_reverse]

theorem trimS_head_non_ws {c : Char} (hc : isWsB c = false) (s : Str) :
    ∃ t, trimS (c :: s) = c :: t := by
  rw [trimS, List.dropWhile_cons_of_neg (by simp [hc])]
  have hrev : (c :: s).reverse = s.reverse ++ [c] := by simp
  rw [hrev, List.dropWhile_append]
  by_cases he : (s.reverse.dropWhile isWsB).isEmpty = true
  · rw [if_pos he]
    rw [List.dropWhile_cons_of_neg (by simp [hc])]
    exact ⟨[], rfl⟩
  · rw [if_neg he]
    cases hdw : s.reverse.dropWhile isWsB with
    | nil => rw [hdw] at he; simp at he
    | cons u us =>
      exact ⟨us.reverse ++ [u], by simp⟩

theorem startsWithB_cons_false {c p : Char} (h : (c == p) = false) (s ps : Str) :
    startsWithB (c :: s) (p :: ps) = false := by
  show ((c == p) && startsWithB s ps) = false
  rw [h]
  rfl

theorem reqLineB_hash (t : Str) : reqLineB ('#' :: t) = false := by
  obtain ⟨u, hu⟩ := trimS_head_non_ws (c := '#') (by decide) t
  rw [reqLineB, hu]
  exact startsWithB_cons_false (by decide) u (strL "equire [")

theorem reqLineB_header (I : Str) :
    reqLineB ((strL "require [" ++ I) ++ strL "];") = true := by
  have h0 : strL "require [" = 'r' :: strL "equire [" := rfl
  have hE : strL "];" = [']', ';'] := rfl
  have h1 : (strL "require [" ++ I) ++ strL "];"
      = 'r' :: (((strL "equire [" ++ I) ++ [']']) ++ [';']) := by
    rw [h0, hE]
    simp [List.append_assoc]
  rw [reqLineB, h1, trimS_eq_self (c := 'r') (d := ';') (by decide) (by decide)]
  have h2 : 'r' :: (((strL "equire [" ++ I) ++ [']']) ++ [';'])
      = strL "require [" ++ ((I ++ [']']) ++ [';']) := by
    rw [h0]
    simp [List.append_assoc]
  rw [h2]
  exact startsWithB_append_self _ _

theorem splitNl_interS (chunks : List Str) (h : chunks ≠ []) :
    splitNl (interS (strL "\n") chunks) = cmap splitNl chunks := by
  induction chunks with
  | nil => exact absurd rfl h
  | cons x xs ih =>
    cases xs with
    | nil => simp [interS, cmap]
    | cons y ys =>
      show splitNl ((x ++ strL "\n") ++ interS (strL "\n") (y :: ys))
        = cmap splitNl (x :: y :: ys)
      have hx : (x ++ strL "\n") ++ interS (strL "\n") (y :: ys)
          = x ++ '\n' :: interS (strL "\n") (y :: ys) := by
        rw [show strL "\n" = ['\n'] from rfl]
        simp
      rw [hx, splitNl_append_nl, ih (by simp)]
      rfl

-- ─────────────── Claim C6: lines of a trimmed string, sublist-wise ──────────

theorem map_trimS_splitNl_cons_ws {c : Char} (hws : isWsB c = true) (s : Str) :
    (splitNl (c :: s)).map trimS = (splitNl s).map trimS
    ∨ (splitNl (c :: s)).map trimS = [] :: (splitNl s).map trimS := by
  by_cases hc : c = '\n'
  · subst hc
    rw [splitNl_cons_nl]
    right
    rfl
  · left
    cases h : splitNl s with
    | nil => exact absurd h (splitOnC_ne_nil _ _)
    | cons r rs =>
      rw [show splitNl (c :: s) = (c :: r) :: rs from by
        rw [splitNl, splitOnC_cons_eq '\n' c s r rs h, if_neg (by simpa using hc)]]
      simp [trimS_cons_ws hws]

theorem splitNl_concat_non_nl {c : Char} (hc : ¬c = '\n') (t : Str) :
    ∃ init last, splitNl t = init ++ [last]
      ∧ splitNl (t ++ [c]) = init ++ [last ++ [c]] := by
  induction t with
  | nil =>
    refine ⟨[], [], rfl, ?_⟩
    rw [show ([] : Str) ++ [c] = [c] from rfl,
      show (splitNl [c] : List Str) = splitOnC '\n' [c] from rfl,
      splitOnC_of_not_mem (by simp; exact fun h => hc h.symm)]
    rfl
  | cons d ds ih =>
    obtain ⟨init, last, h1, h2⟩ := ih
    by_cases hd : d = '\n'
    · subst hd
      refine ⟨[] :: init, last, ?_, ?_⟩
      · rw [splitNl_cons_nl, h1]
        rfl
      · rw [List.cons_append, splitNl_cons_nl, h2]
        rfl
    · cases init with
      | nil =>
        refine ⟨[], d :: last, ?_, ?_⟩
        · rw [splitNl, splitOnC_cons_eq '\n' d ds last [] (by simpa using h1),
            if_neg (by simpa using hd)]
          rfl
        · rw [List.cons_append, splitNl,
            splitOnC_cons_eq '\n' d (ds ++ [c]) (last ++ [c]) [] (by simpa using h2),
            if_neg (by simpa using hd)]
          rfl
      | cons i0 irest =>
        refine ⟨(d :: i0) :: irest, last, ?_, ?_⟩
        · rw [splitNl, splitOnC_cons_eq '\n' d ds i0 (irest ++ [last])
            (by simpa using h1), if_neg (by simpa using hd)]
          rfl
        · rw [List.cons_append, splitNl,
            splitOnC_cons_eq '\n' d (ds ++ [c]) i0 (irest ++ [last ++ [c]])
            (by simpa using h2), if_neg (by simpa using hd)]
          rfl

theorem map_trimS_splitNl_concat_ws {c : Char} (hws : isWsB c = true) (hc : ¬c = '\n')
    (t : Str) : (splitNl (t ++ [c])).map trimS = (splitNl t).map trimS := by
  obtain ⟨init, last, h1, h2⟩ := splitNl_concat_non_nl hc t
  rw [h1, h2]
  simp [trimS_concat_ws hws]

theorem map_trimS_sublist_left (w core : Str) (hw : ∀ c ∈ w, isWsB c = true) :
    List.Sublist ((splitNl core).map trimS) ((splitNl (w ++ core)).map trimS) := by
  induction w with
  | nil => simp
  | cons c cs ih =>
    have hc : isWsB c = true := hw c (List.mem_cons_self c cs)
    have ih' := ih (fun d hd => hw d (List.mem_cons_of_mem _ hd))
    rw [List.cons_append]
    rcases map_trimS_splitNl_cons_ws hc (cs ++ core) with h | h
    · rw [h]; exact ih'
    · rw [h]; exact ih'.cons []

theorem map_trimS_sublist_right (t w : Str) (hw : ∀ c ∈ w, isWsB c = true) :
    List.Sublist ((splitNl t).map trimS) ((splitNl (t ++ w)).map trimS) := by
  induction w generalizing t with
  | nil => simp
  | cons c cs ih =>
    have hc : isWsB c = true := hw c (List.mem_cons_self c cs)
    have step : List.Sublist ((splitNl t).map trimS) ((splitNl (t ++ [c])).map trimS) := by
      by_cases hcn : c = '\n'
      · subst hcn
        rw [show t ++ ['\n'] = t ++ '\n' :: [] from rfl, splitNl_append_nl,
          List.map_append]
        exact List.sublist_append_left _ _
      · rw [map_trimS_splitNl_concat_ws hc hcn]
    rw [show t ++ c :: cs = (t ++ [c]) ++ cs from by simp]
    exact step.trans (ih (t ++ [c]) (fun d hd => hw d (List.mem_cons_of_mem _ hd)))

theorem map_trimS_trimS_sublist (s : Str) :
    List.Sublist ((splitNl (trimS s)).map trimS) ((splitNl s).map trimS) := by
  have hw1 : ∀ c ∈ s.takeWhile isWsB, isWsB c = true :=
    fun c hc => List.mem_takeWhile_imp hc
  have hw2 : ∀ c ∈ ((s.dropWhile isWsB).reverse.takeWhile isWsB).reverse,
      isWsB c = true := by
    intro c hc
    rw [List.mem_reverse] at hc
    exact List.mem_takeWhile_imp hc
  have hdec2 : s.dropWhile isWsB
      = trimS s ++ ((s.dropWhile isWsB).reverse.takeWhile isWsB).reverse := by
    conv_lhs => rw [← List.reverse_reverse (s.dropWhile isWsB)]
    conv_lhs => rw [← List.takeWhile_append_dropWhile (p := isWsB)
      (l := (s.dropWhile isWsB).reverse)]
    rw [List.reverse_append]
    rfl
  have h1 : List.Sublist ((splitNl (trimS s)).map trimS)
      ((splitNl (s.dropWhile isWsB)).map trimS) := by
    have := map_trimS_sublist_right (trimS s)
      ((s.dropWhile isWsB).reverse.takeWhile isWsB).reverse hw2
    rw [← hdec2] at this
    exact this
  have h2 : List.Sublist ((splitNl (s.dropWhile isWsB)).map trimS)
      ((splitNl s).map trimS) := by
    have := map_trimS_sublist_left (s.takeWhile isWsB) (s.dropWhile isWsB) hw1
    rw [List.takeWhile_append_dropWhile] at this
    exact this
  exact h1.trans h2

-- ─────────────────────── Claim C6: counting require lines ───────────────────

theorem countP_reqLineB_eq_map (L : List Str) :
    L.countP reqLineB
      = (L.map trimS).countP (fun t => startsWithB t (strL "require [")) := by
  rw [List.countP_map]
  rfl

theorem countP_reqLineB_trim_le (X : Str) :
    (splitNl (trimS X)).countP reqLineB ≤ (splitNl X).countP reqLineB := by
  rw [countP_reqLineB_eq_map, countP_reqLineB_eq_map]
  exact (map_trimS_trimS_sublist X).countP_le _

theorem countP_cmap_zero {p : Str → Bool} (f : Str → List Str) (l : List Str)
    (h : ∀ x ∈ l, (f x).countP p = 0) : (cmap f l).countP p = 0 := by
  induction l with
  | nil => rfl
  | cons a as ih =>
    show (f a ++ cmap f as).countP p = 0
    rw [List.countP_append, h a (List.mem_cons_self a as),
      ih (fun x hx => h x (List.mem_cons_of_mem _ hx))]

theorem countP_splitNl_single_line (l : Str) (hnl : '\n' ∉ l)
    (hreq : reqLineB l = false) : (splitNl l).countP reqLineB = 0 := by
  rw [show (splitNl l : List Str) = splitOnC '\n' l from rfl, splitOnC_of_not_mem hnl]
  simp [List.countP_cons, hreq]

theorem countP_splitNl_interS_zero (ls : List Str)
    (h : ∀ l ∈ ls, reqLineB l = false ∧ '\n' ∉ l) :
    (splitNl (interS (strL "\n") ls)).countP reqLineB = 0 := by
  cases ls with
  | nil => decide
  | cons x xs =>
    rw [splitNl_interS _ (by simp)]
    exact countP_cmap_zero _ _ (fun l hl =>
      countP_splitNl_single_line l (h l hl).2 (h l hl).1)

-- ───────────────── Claim C6: extension-set fold invariants ──────────────────

theorem trimChar_subset (ch : Char) (s : Str) : ∀ c ∈ trimChar ch s, c ∈ s := by
  intro c hc
  rw [trimChar, List.mem_reverse] at hc
  have := List.dropWhile_subset (l := (s.dropWhile (· == ch)).reverse) (· == ch) hc
  rw [List.mem_reverse] at this
  exact List.dropWhile_subset _ this

theorem trimS_subset (s : Str) : ∀ c ∈ trimS s, c ∈ s := by
  intro c hc
  rw [trimS, List.mem_reverse] at hc
  have := List.dropWhile_subset (l := (s.dropWhile isWsB).reverse) isWsB hc
  rw [List.mem_reverse] at this
  exact List.dropWhile_subset _ this

theorem splitOnC_piece_subset (sep : Char) (s : Str) :
    ∀ p ∈ splitOnC sep s, ∀ c ∈ p, c ∈ s := by
  induction s with
  | nil => simp [splitOnC]
  | cons d ds ih =>
    intro p hp c hc
    cases h : splitOnC sep ds with
    | nil => exact absurd h (splitOnC_ne_nil _ _)
    | cons r rs =>
      rw [splitOnC_cons_eq sep d ds r rs h] at hp
      by_cases hd : d == sep
      · rw [if_pos hd] at hp
        rcases List.mem_cons.mp hp with hp | hp
        · subst hp; simp at hc
        · exact List.mem_cons_of_mem _ (ih p (h ▸ hp) c hc)
      · rw [if_neg hd] at hp
        rcases List.mem_cons.mp hp with hp | hp
        · subst hp
          rcases List.mem_cons.mp hc with hc | hc
          · subst hc; exact List.mem_cons_self _ _
          · exact List.mem_cons_of_mem _ (ih r (h ▸ List.mem_cons_self r rs) c hc)
        · exact List.mem_cons_of_mem _ (ih p (h ▸ List.mem_cons_of_mem r hp) c hc)

theorem parseReqTokens_subset (t : Str) :
    ∀ tok ∈ parseReqTokens t, ∀ c ∈ tok, c ∈ t := by
  intro tok htok c hc
  rw [parseReqTokens] at htok
  rcases h1 : indexOfC '[' t with _ | istart <;> rw [h1] at htok
  · simp at htok
  rcases h2 : indexOfC ']' t with _ | iend <;> rw [h2] at htok
  · simp at htok
  dsimp only at htok
  by_cases hlt : istart < iend
  · rw [if_pos hlt] at htok
    rw [List.mem_filter] at htok
    obtain ⟨p, hp, hptok⟩ := List.mem_map.mp htok.1
    have hc1 : c ∈ trimS p := trimChar_subset '"' (trimS p) c (hptok.symm ▸ hc)
    have hc2 : c ∈ p := trimS_subset p c hc1
    have hc3 : c ∈ (t.take iend).drop (istart + 1) :=
      splitOnC_piece_subset ',' _ p hp c hc2
    exact List.take_subset _ _ (List.drop_subset _ _ hc3)
  · rw [if_neg hlt] at htok
    simp at htok

theorem mem_insertExt {xs : List Str} {x y : Str} (h : y ∈ insertExt xs x) :
    y ∈ xs ∨ y = x := by
  rw [insertExt] at h
  by_cases hm : x ∈ xs
  · rw [if_pos hm] at h; exact Or.inl h
  · rw [if_neg hm] at h
    rcases List.mem_append.mp h with h | h
    · exact Or.inl h
    · exact Or.inr (by simpa using h)

theorem insertExt_nodup {xs : List Str} {x : Str} (h : xs.Nodup) :
    (insertExt xs x).Nodup := by
  rw [insertExt]
  by_cases hm : x ∈ xs
  · rw [if_pos hm]; exact h
  · rw [if_neg hm]
    simp [List.nodup_append, h, hm]

theorem foldl_insertExt_inv (P : Str → Prop) (toks acc : List Str)
    (hacc : ∀ x ∈ acc, P x) (htoks : ∀ x ∈ toks, P x) :
    ∀ x ∈ toks.foldl insertExt acc, P x := by
  induction toks generalizing acc with
  | nil => exact hacc
  | cons t ts ih =>
    rw [List.foldl_cons]
    refine ih (insertExt acc t) ?_ (fun x hx => htoks x (List.mem_cons_of_mem _ hx))
    intro x hx
    rcases mem_insertExt hx with hx | hx
    · exact hacc x hx
    · exact hx ▸ htoks t (List.mem_cons_self t ts)

theorem foldl_insertExt_nodup (toks acc : List Str) (h : acc.Nodup) :
    (toks.foldl insertExt acc).Nodup := by
  induction toks generalizing acc with
  | nil => exact h
  | cons t ts ih =>
    rw [List.foldl_cons]
    exact ih _ (insertExt_nodup h)

-- ───────────────── Claim C6: combine-loop fold invariants ───────────────────

theorem combineLine_foldl_fst_inv (lines : List Str) (acc : List Str × List Str)
    (hacc : ∀ tok ∈ acc.1, '\n' ∉ tok) (hlines : ∀ l ∈ lines, '\n' ∉ l) :
    ∀ tok ∈ (lines.foldl combineLine acc).1, '\n' ∉ tok := by
  induction lines generalizing acc with
  | nil => exact hacc
  | cons l ls ih =>
    rw [List.foldl_cons]
    refine ih (combineLine acc l) ?_ (fun x hx => hlines x (List.mem_cons_of_mem _ hx))
    intro tok htok
    rw [combineLine] at htok
    by_cases hr : reqLineB l = true
    · rw [if_pos hr] at htok
      refine foldl_insertExt_inv (fun tok => '\n' ∉ tok) _ _ hacc ?_ tok
        (by simpa using htok)
      intro x hx hmem
      exact hlines l (List.mem_cons_self l ls)
        (trimS_subset l '\n' (parseReqTokens_subset (trimS l) x hx '\n' hmem))
    · rw [if_neg hr] at htok
      exact hacc tok (by simpa using htok)

theorem combineLine_foldl_fst_nodup (lines : List Str) (acc : List Str × List Str)
    (hacc : acc.1.Nodup) : ((lines.foldl combineLine acc).1).Nodup := by
  induction lines generalizing acc with
  | nil => exact hacc
  | cons l ls ih =>
    rw [List.foldl_cons]
    refine ih (combineLine acc l) ?_
    rw [combineLine]
    by_cases hr : reqLineB l = true
    · rw [if_pos hr]
      exact foldl_insertExt_nodup _ _ hacc
    · rw [if_neg hr]
      exact hacc

theorem combineLine_foldl_snd (lines : List Str) (acc : List Str × List Str) :
    ∀ l ∈ (lines.foldl combineLine acc).2,
      l ∈ acc.2 ∨ (l ∈ lines ∧ reqLineB l = false) := by
  induction lines generalizing acc with
  | nil => exact fun l hl => Or.inl hl
  | cons x xs ih =>
    intro l hl
    rw [List.foldl_cons] at hl
    rcases ih (combineLine acc x) l hl with h | h
    · rw [combineLine] at h
      by_cases hr : reqLineB x = true
      · rw [if_pos hr] at h
        exact Or.inl (by simpa using h)
      · rw [if_neg hr] at h
        have h' : l ∈ acc.2 ∨ l = x := by simpa using h
        rcases h' with h' | h'
        · exact Or.inl h'
        · subst h'
          exact Or.inr ⟨List.mem_cons_self l xs, by simpa using hr⟩
    · exact Or.inr ⟨List.mem_cons_of_mem _ h.1, h.2⟩

theorem combineStep_fst_eq (st : List Str × List Str) (sc : SieveScript) :
    (combineStep st sc).1 = ((splitNl sc.content).foldl combineLine (st.1, [])).1 := by
  simp only [combineStep]
  by_cases hcont : trimS (interS (strL "\n")
      ((splitNl sc.content).foldl combineLine (st.1, [])).2) = []
  · rw [if_pos hcont]
  · rw [if_neg hcont]

theorem combineStep_snd_inv (st : List Str × List Str) (sc : SieveScript)
    (hname : '\n' ∉ sc.name)
    (hst : ∀ ch ∈ st.2, (splitNl ch).countP reqLineB = 0) :
    ∀ ch ∈ (combineStep st sc).2, (splitNl ch).countP reqLineB = 0 := by
  intro ch hch
  simp only [combineStep] at hch
  by_cases hcont : trimS (interS (strL "\n")
      ((splitNl sc.content).foldl combineLine (st.1, [])).2) = []
  · rw [if_pos hcont] at hch
    exact hst ch (by simpa using hch)
  · rw [if_neg hcont] at hch
    have hlines : ∀ l ∈ ((splitNl sc.content).foldl combineLine (st.1, [])).2,
        reqLineB l = false ∧ '\n' ∉ l := by
      intro l hl
      rcases combineLine_foldl_snd _ _ l hl with h | h
      · simp at h
      · exact ⟨h.2, splitOnC_not_mem '\n' sc.content l h.1⟩
    have hch' : ch ∈ st.2 ∨ ch = strL "# Filter: " ++ sc.name
        ∨ ch = trimS (interS (strL "\n")
            ((splitNl sc.content).foldl combineLine (st.1, [])).2)
        ∨ ch = [] := by simpa using hch
    rcases hch' with h | h | h | h
    · exact hst ch h
    · subst h
      have hnl : '\n' ∉ strL "# Filter: " ++ sc.name := by
        intro hm
        rcases List.mem_append.mp hm with hm | hm
        · revert hm; decide
        · exact hname hm
      refine countP_splitNl_single_line _ hnl ?_
      exact (show reqLineB ('#' :: (strL " Filter: " ++ sc.name)) = false from
        reqLineB_hash _)
    · subst h
      have h0 := countP_splitNl_interS_zero _ hlines
      have h1 := countP_reqLineB_trim_le (interS (strL "\n")
        ((splitNl sc.content).foldl combineLine (st.1, [])).2)
      omega
    · subst h
      decide

theorem foldl_combineStep_fst_nonl (scripts : List SieveScript)
    (st : List Str × List Str) (hst : ∀ tok ∈ st.1, '\n' ∉ tok) :
    ∀ tok ∈ (scripts.foldl combineStep st).1, '\n' ∉ tok := by
  induction scripts generalizing st with
  | nil => exact hst
  | cons sc scs ih =>
    rw [List.foldl_cons]
    refine ih (combineStep st sc) ?_
    rw [combineStep_fst_eq]
    exact combineLine_foldl_fst_inv _ _ hst
      (fun l hl => splitOnC_not_mem '\n' sc.content l hl)

theorem foldl_combineStep_fst_nodup (scripts : List SieveScript)
    (st : List Str × List Str) (hst : st.1.Nodup) :
    ((scripts.foldl combineStep st).1).Nodup := by
  induction scripts generalizing st with
  | nil => exact hst
  | cons sc scs ih =>
    rw [List.foldl_cons]
    refine ih (combineStep st sc) ?_
    rw [combineStep_fst_eq]
    exact combineLine_foldl_fst_nodup _ _ hst

theorem foldl_combineStep_snd_inv (scripts : List SieveScript)
    (st : List Str × List Str)
    (hn : ∀ sc ∈ scripts, '\n' ∉ sc.name)
    (hst : ∀ ch ∈ st.2, (splitNl ch).countP reqLineB = 0) :
    ∀ ch ∈ (scripts.foldl combineStep st).2, (splitNl ch).countP reqLineB = 0 := by
  induction scripts generalizing st with
  | nil => exact hst
  | cons sc scs ih =>
    rw [List.foldl_cons]
    exact ih (combineStep st sc) (fun x hx => hn x (List.mem_cons_of_mem _ hx))
      (combineStep_snd_inv st sc (hn sc (List.mem_cons_self sc scs)) hst)

theorem collectedReq_no_nl (scripts : List SieveScript) :
    ∀ tok ∈ collectedReq scripts, '\n' ∉ tok :=
  foldl_combineStep_fst_nonl scripts ([], []) (by simp)

theorem collectedReq_nodup (scripts : List SieveScript) :
    (collectedReq scripts).Nodup :=
  foldl_combineStep_fst_nodup scripts ([], []) (by simp)

theorem bodyChunks_countP (scripts : List SieveScript)
    (hn : ∀ sc ∈ scripts, '\n' ∉ sc.name) :
    ∀ ch ∈ bodyChunksOf scripts, (splitNl ch).countP reqLineB = 0 :=
  foldl_combineStep_snd_inv scripts ([], []) hn (by simp)

-- ────────────────── Claim C6: sortedness and character sets ─────────────────

theorem lexLe_total (a b : Str) : lexLe a b = true ∨ lexLe b a = true := by
  induction a generalizing b with
  | nil => left; rfl
  | cons x xs ih =>
    cases b with
    | nil => right; rfl
    | cons y ys =>
      by_cases h1 : x < y
      · left; simp [lexLe, h1]
      · by_cases h2 : y < x
        · right; simp [lexLe, h2]
        · rcases ih ys with h | h
          · left; simp [lexLe, h1, h2, h]
          · right; simp [lexLe, h1, h2, h]

theorem insertSorted_headD (x : Str) (l : List Str) :
    (insertSorted x l).head? = some x ∨ (insertSorted x l).head? = l.head? := by
  cases l with
  | nil => left; rfl
  | cons y ys =>
    rw [insertSorted]
    by_cases h : lexLe x y = true
    · rw [if_pos h]; left; rfl
    · rw [if_neg h]; right; rfl

theorem insertSorted_chain (x : Str) (l : List Str)
    (hl : List.Chain' (fun a b => lexLe a b = true) l) :
    List.Chain' (fun a b => lexLe a b = true) (insertSorted x l) := by
  induction l with
  | nil => simp [insertSorted]
  | cons y ys ih =>
    rw [insertSorted]
    by_cases h : lexLe x y = true
    · rw [if_pos h]
      exact List.chain'_cons.mpr ⟨h, hl⟩
    · rw [if_neg h]
      have hys : List.Chain' (fun a b => lexLe a b = true) ys :=
        (List.chain'_cons'.mp hl).2
      have hy : ∀ z ∈ ys.head?, lexLe y z = true := (List.chain'_cons'.mp hl).1
      refine List.chain'_cons'.mpr ⟨?_, ih hys⟩
      intro z hz
      rcases insertSorted_headD x ys with hh | hh
      · rw [hh] at hz
        have hzx : x = z := by simpa using hz
        subst hzx
        rcases lexLe_total x y with ht | ht
        · exact absurd ht h
        · exact ht
      · rw [hh] at hz
        exact hy z hz

theorem sortStrs_chain (xs : List Str) :
    List.Chain' (fun a b => lexLe a b = true) (sortStrs xs) := by
  induction xs with
  | nil => simp [sortStrs]
  | cons x xs ih =>
    show List.Chain' _ (insertSorted x (sortStrs xs))
    exact insertSorted_chain x _ ih

theorem interS_mem {sep : Str} {xs : List Str} {c : Char} (h : c ∈ interS sep xs) :
    c ∈ sep ∨ ∃ x ∈ xs, c ∈ x := by
  induction xs with
  | nil => simp [interS] at h
  | cons x ys ih =>
    cases ys with
    | nil => right; exact ⟨x, by simp, by simpa [interS] using h⟩
    | cons y yys =>
      rw [interS] at h
      rcases List.mem_append.mp h with h | h
      · rcases List.mem_append.mp h with h | h
        · right; exact ⟨x, List.mem_cons_self x _, h⟩
        · left; exact h
      · rcases ih h with h | h
        · left; exact h
        · right
          obtain ⟨z, hz, hcz⟩ := h
          exact ⟨z, List.mem_cons_of_mem _ hz, hcz⟩

theorem mem_insertSorted {x y : Str} {l : List Str} (h : y ∈ insertSorted x l) :
    y = x ∨ y ∈ l := by
  induction l with
  | nil => exact Or.inl (by simpa [insertSorted] using h)
  | cons z zs ih =>
    rw [insertSorted] at h
    by_cases hc : lexLe x z = true
    · rw [if_pos hc] at h
      rcases List.mem_cons.mp h with h | h
      · exact Or.inl h
      · exact Or.inr h
    · rw [if_neg hc] at h
      rcases List.mem_cons.mp h with h | h
      · exact Or.inr (h ▸ List.mem_cons_self z zs)
      · rcases ih h with h | h
        · exact Or.inl h
        · exact Or.inr (List.mem_cons_of_mem _ h)

theorem mem_sortStrs {xs : List Str} {y : Str} (h : y ∈ sortStrs xs) : y ∈ xs := by
  induction xs with
  | nil => simp [sortStrs] at h
  | cons x xs ih =>
    have h' : y = x ∨ y ∈ sortStrs xs := mem_insertSorted (by simpa [sortStrs] using h)
    rcases h' with h' | h'
    · exact h' ▸ List.mem_cons_self x xs
    · exact List.mem_cons_of_mem _ (ih h')

theorem cmap_mem {α β : Type} {f : α → List β} {l : List α} {c : β}
    (h : c ∈ cmap f l) : ∃ x ∈ l, c ∈ f x := by
  induction l with
  | nil => simp [cmap] at h
  | cons a as ih =>
    rw [cmap] at h
    rcases List.mem_append.mp h with h | h
    · exact ⟨a, List.mem_cons_self a as, h⟩
    · obtain ⟨x, hx, hcx⟩ := ih h
      exact ⟨x, List.mem_cons_of_mem _ hx, hcx⟩

theorem esc1_chars {x c : Char} (h : c ∈ esc1 x) : c = '\\' ∨ c = '"' ∨ c = x := by
  rw [esc1] at h
  by_cases h1 : (x == '\\') = true
  · rw [if_pos h1] at h
    rcases List.mem_cons.mp h with h | h
    · exact Or.inl h
    · exact Or.inl (by simpa using h)
  · rw [if_neg h1] at h
    by_cases h2 : (x == '"') = true
    · rw [if_pos h2] at h
      rcases List.mem_cons.mp h with h | h
      · exact Or.inl h
      · exact Or.inr (Or.inl (by simpa using h))
    · rw [if_neg h2] at h
      exact Or.inr (Or.inr (by simpa using h))

theorem quoteString_chars {s : Str} {c : Char} (h : c ∈ quoteString s) :
    c = '"' ∨ c = '\\' ∨ c ∈ s := by
  rw [quoteString, replAll_esc] at h
  rcases List.mem_cons.mp h with h | h
  · exact Or.inl h
  · rcases List.mem_append.mp h with h | h
    · obtain ⟨x, hx, hcx⟩ := cmap_mem h
      rcases esc1_chars hcx with h' | h' | h'
      · exact Or.inr (Or.inl h')
      · exact Or.inl h'
      · exact Or.inr (Or.inr (h' ▸ hx))
    · exact Or.inl (by simpa using h)

-- ─────────────────────────────── Claim C6 ───────────────────────────────────

/-- C6: `CombineScripts` drops every line whose trimmed form starts with
`require [` from the bodies and collects their extension tokens into one
duplicate-free set; the combined content has exactly one such require line
when the collected set is non-empty and none otherwise; the rendered
extension list is sorted lexicographically (after quoting); and the output
keeps the caller-supplied name.  (Script names are assumed newline-free, as
every name the generator produces is.) -/
theorem c6_combine_require (nm : Str) (scripts : List SieveScript)
    (hn : ∀ sc ∈ scripts, '\n' ∉ sc.name) :
    (splitNl (CombineScripts nm scripts).content).countP reqLineB
      = (if collectedReq scripts = [] then 0 else 1)
    ∧ (CombineScripts nm scripts).name = nm
    ∧ (collectedReq scripts).Nodup
    ∧ List.Chain' (fun a b => lexLe a b = true)
        (sortStrs ((collectedReq scripts).map quoteString)) := by
  refine ⟨?_, rfl, collectedReq_nodup scripts, sortStrs_chain _⟩
  have hbody : ∀ _ : bodyChunksOf scripts ≠ [],
      (splitNl (interS (strL "\n") (bodyChunksOf scripts))).countP reqLineB = 0 := by
    intro hch
    rw [splitNl_interS _ hch]
    exact countP_cmap_zero _ _ (fun ch h2 => bodyChunks_countP scripts hn ch h2)
  simp only [CombineScripts]
  by_cases hreq : collectedReq scripts = []
  · rw [if_pos hreq, if_pos hreq, List.nil_append]
    by_cases hch : bodyChunksOf scripts = []
    · rw [if_pos hch]
      decide
    · rw [if_neg hch]
      exact hbody hch
  · rw [if_neg hreq, if_neg hreq]
    have hInl : '\n' ∉ interS (strL ", ")
        (sortStrs (List.map quoteString (collectedReq scripts))) := by
      intro hm
      rcases interS_mem hm with hm | ⟨x, hx, hcx⟩
      · revert hm; decide
      · have hx' : x ∈ List.map quoteString (collectedReq scripts) := mem_sortStrs hx
        obtain ⟨tok, htok, rfl⟩ := List.mem_map.mp hx'
        rcases quoteString_chars hcx with h' | h' | h'
        · exact absurd h' (by decide)
        · exact absurd h' (by decide)
        · exact collectedReq_no_nl scripts tok htok h'
    generalize hI : interS (strL ", ")
      (sortStrs (List.map quoteString (collectedReq scripts))) = I
    rw [hI] at hInl
    have hsplit : (strL "require [" ++ I ++ strL "];\n\n")
          ++ (if bodyChunksOf scripts = [] then []
              else interS (strL "\n") (bodyChunksOf scripts))
        = ((strL "require [" ++ I) ++ strL "];") ++ '\n'
            :: ('\n' :: (if bodyChunksOf scripts = [] then []
              else interS (strL "\n") (bodyChunksOf scripts))) := by
      rw [show strL "];\n\n" = strL "];" ++ ['\n', '\n'] from rfl]
      simp [List.append_assoc]
    rw [hsplit, splitNl_append_nl, splitNl_cons_nl, List.countP_append]
    have hnlA : '\n' ∉ (strL "require [" ++ I) ++ strL "];" := by
      intro hm
      rcases List.mem_append.mp hm with hm | hm
      · rcases List.mem_append.mp hm with hm | hm
        · revert hm; decide
        · exact hInl hm
      · revert hm; decide
    rw [show splitNl ((strL "require [" ++ I) ++ strL "];")
      = [(strL "require [" ++ I) ++ strL "];"] from splitOnC_of_not_mem hnlA]
    rw [show List.countP reqLineB [(strL "require [" ++ I) ++ strL "];"] = 1 from by
      rw [List.countP_cons, List.countP_nil, reqLineB_header I]
      simp]
    rw [List.countP_cons]
    rw [show reqLineB ([] : Str) = false from by decide]
    by_cases hch : bodyChunksOf scripts = []
    · rw [if_pos hch]
      decide
    · rw [if_neg hch]
      rw [hbody hch]
      decide

/-- C6 witness: combining two scripts that each require `fileinto` yields a
script with exactly one require line, and that line is
`require ["fileinto"];`. -/
theorem c6_combine_require_witness :
    (∀ sc ∈ s6, '\n' ∉ sc.name)
    ∧ (splitNl (CombineScripts (strL "u") s6).content).countP reqLineB = 1
    ∧ strL "require [\"fileinto\"];" ∈ splitNl (CombineScripts (strL "u") s6).content :=
  ⟨by decide, by
    have h := (c6_combine_require (strL "u") s6 (by decide)).1
    rw [h]
    decide, by decide⟩

end Sieve
